import Mathlib

/-!
Shallow embedding of the retrieval core of `src/retrieval.py`
(URL-aware MMR selection, candidate fetching post-processing,
source merge, and result formatting of `hybrid_retrieve_pg`).

Modelling conventions:
* Python floats are modelled exactly: rational-valued data (scores,
  term frequencies, the MMR lambda, the source-repeat factor) lives in `ℚ`;
  the one genuinely real-valued operation, `math.sqrt` inside `_cosine`,
  forces cosine similarities and MMR values into `ℝ`.
* Python dicts (insertion ordered) are association lists in insertion order.
* `None`-able string fields are `Option String`; Python truthiness of a
  string collapses `None` and `""` exactly where the code only tests truthiness.
* The two external calls (embedding service, vector store) are out of scope
  per the spec; `hybrid_retrieve_pg` takes the fetch outcome as an
  `Except` argument: `.error` models an exception raised by
  `get_embedding`/the store inside `vector_candidates` (caught at line 147),
  `.ok rows` the rows the store returned.
* A Python runtime error escaping a modelled function is `Option.none`
  (the only reachable one is `avail.remove(None)` at line 100 raising
  `ValueError` when no candidate beats the `-1e18` sentinel).
-/

/-- A term-frequency profile: Python `Dict[str, float]` in insertion order. -/
abbrev Profile := List (String × ℚ)

/-- Python `d[t]` / `d.get(t)` first-match lookup with default `0`. -/
def lookupQ (d : Profile) (t : String) : ℚ :=
  ((d.find? (fun p => p.1 = t)).map Prod.snd).getD 0

/-- Python `t in d`. -/
def memKey (d : Profile) (t : String) : Bool :=
  d.any (fun p => p.1 = t)

/-- Keys of a profile in first-seen order (Python `set`/dict key iteration,
order irrelevant because sums over them are commutative). -/
def firstSeen (l : List String) : List String :=
  l.foldl (fun acc k => if k ∈ acc then acc else acc ++ [k]) []

def keysDedup (a : Profile) : List String := firstSeen (a.map Prod.fst)

/-- Python `s.lower()`: per-character case folding. -/
def pyLower (s : String) : String := String.mk (s.data.map Char.toLower)

/-- Helper for Python `s.split()`: split a character list on whitespace
runs, discarding empty pieces; `cur` is the current token reversed. -/
def splitWsAux : List Char → List Char → List String
  | [], cur => if cur = [] then [] else [String.mk cur.reverse]
  | c :: cs, cur =>
      if c.isWhitespace then
        if cur = [] then splitWsAux cs []
        else String.mk cur.reverse :: splitWsAux cs []
      else splitWsAux cs (c :: cur)

/-- Python `s.strip()`: drop leading and trailing whitespace. -/
def pyStrip (s : String) : String :=
  String.mk (((s.data.dropWhile Char.isWhitespace).reverse.dropWhile
    Char.isWhitespace).reverse)

/-- Python `s.rstrip("/")`: drop every trailing `'/'`. -/
def pyRstripSlash (s : String) : String :=
  String.mk ((s.data.reverse.dropWhile (fun c => c = '/')).reverse)

/-- Python tokens `(s or "").lower().split()`: case-folded whitespace split,
empty pieces discarded (retrieval.py line 47). -/
def pyTokens (s : String) : List String :=
  splitWsAux (pyLower s).data []

/-- `collections.Counter(toks)` as an insertion-ordered association list. -/
def countsOf (toks : List String) : List (String × ℕ) :=
  toks.foldl (fun acc t =>
    match acc.find? (fun p => p.1 = t) with
    | some _ => acc.map (fun p => if p.1 = t then (p.1, p.2 + 1) else p)
    | none => acc ++ [(t, 1)]) []

/-- `_tf_dict` (retrieval.py lines 46-51): normalized term frequencies. -/
def _tf_dict (s : String) : Profile :=
  let toks := pyTokens s
  if toks = [] then []
  else
    let c := countsOf toks
    let tot : ℚ := ((c.map (fun p => p.2)).sum : ℕ)
    if tot > 0 then c.map (fun p => (p.1, (p.2 : ℚ) / tot)) else []

/-- `sum(v*v for v in a.values())`. -/
def sumSq (a : Profile) : ℚ := (a.map (fun p => p.2 * p.2)).sum

/-- `sum(a[t] * b[t] for t in set(a) & set(b))` (order irrelevant in `ℚ`). -/
def dotCommon (a b : Profile) : ℚ :=
  (((keysDedup a).filter (fun t => memKey b t)).map
    (fun t => lookupQ a t * lookupQ b t)).sum

/-- `math.sqrt(sum(v*v for v in a.values())) or 1.0` (lines 57-58):
Python `or 1.0` turns a zero norm into `1.0`. -/
noncomputable def pyNorm (a : Profile) : ℝ :=
  let s := Real.sqrt ((sumSq a : ℚ) : ℝ)
  if s = 0 then 1 else s

/-- `_cosine` (retrieval.py lines 53-59). -/
noncomputable def pyCosine (a b : Profile) : ℝ :=
  if a = [] ∨ b = [] then 0
  else ((dotCommon a b : ℚ) : ℝ) / (pyNorm a * pyNorm b)

/-- Candidate metadata as built at retrieval.py lines 167-172. -/
structure Meta where
  id : Option String
  url : String
  score : ℚ
  tfidf : Profile
deriving DecidableEq

/-- A scored candidate dict as consumed by `mmr_select_url_aware`
(`{"text", "score", "tfidf", "meta"}`, retrieval.py line 173). -/
structure Cand where
  text : String
  score : ℚ
  tfidf : Profile
  meta : Meta
deriving DecidableEq

def dMeta : Meta := { id := none, url := "", score := 0, tfidf := [] }

def dCand : Cand := { text := "", score := 0, tfidf := [], meta := dMeta }

/-- Stable insertion of `x` in front of the first strictly smaller key:
`x` goes before `y` exactly when `key x ≥ key y`, so among equal keys the
element from earlier in the original list stays first. -/
def insertDescBy {α : Type} (key : α → ℚ) (x : α) : List α → List α
  | [] => [x]
  | y :: ys => if key y ≤ key x then x :: y :: ys else y :: insertDescBy key x ys

/-- Stable sort, descending by `key`: models Python's stable
`list.sort(key=..., reverse=True)` / `sorted(..., reverse=True)`. -/
def sortDescBy {α : Type} (key : α → ℚ) : List α → List α
  | [] => []
  | x :: xs => insertDescBy key x (sortDescBy key xs)

/-- Source-repeat attenuation factor `0.2 + 0.1 / max(url_count[u], 1)`
(retrieval.py line 91), with `count` the number of pool candidates sharing
the URL. -/
def repeatFactor (count : ℕ) : ℚ := 0.2 + 0.1 / (max count 1 : ℚ)

/-- One pairwise similarity inside the MMR loop (retrieval.py lines 89-92):
cosine similarity, scaled by the source-repeat factor exactly when both URL
strings are truthy and equal as stored. -/
noncomputable def pairSim (vecs : List Profile) (urls : List String) (i j : ℕ) : ℝ :=
  let sim := pyCosine (vecs.getD i []) (vecs.getD j [])
  let ui := urls.getD i ""
  let uj := urls.getD j ""
  if ui ≠ "" ∧ uj ≠ "" ∧ ui = uj then sim * ((repeatFactor (urls.count ui) : ℚ) : ℝ)
  else sim

/-- Python `max(sims)` on a nonempty list (`0` never used: guarded by the
caller's `if sims else 0.0`). -/
noncomputable def pymaxR : List ℝ → ℝ
  | [] => 0
  | x :: xs => xs.foldl max x

/-- Python `max` on a nonempty list of rationals (for stating properties). -/
def pymaxQ : List ℚ → ℚ
  | [] => 0
  | x :: xs => xs.foldl max x

/-- `div` of candidate `i` against the current selection
(retrieval.py lines 85-94): `0.0` for a falsy profile, otherwise the maximum
pairwise similarity to the already-selected candidates. -/
noncomputable def divPenalty (vecs : List Profile) (urls : List String)
    (selected : List ℕ) (i : ℕ) : ℝ :=
  if vecs.getD i [] = [] then 0
  else pymaxR (selected.map (fun j => pairSim vecs urls i j))

/-- `val = lambda_ * rel - (1.0 - lambda_) * div` (retrieval.py line 96). -/
noncomputable def mmrVal (vecs : List Profile) (urls : List String) (rels : List ℚ)
    (lambda_ : ℚ) (selected : List ℕ) (i : ℕ) : ℝ :=
  (lambda_ : ℝ) * ((rels.getD i 0 : ℚ) : ℝ)
    - ((1 : ℝ) - (lambda_ : ℝ)) * divPenalty vecs urls selected i

/-- The `for i in avail` scan with `best_i, best_val = None, -1e18` and the
strict `val > best_val` update (retrieval.py lines 82-98). -/
noncomputable def bestFold (valf : ℕ → ℝ) : List ℕ → Option ℕ × ℝ → Option ℕ × ℝ
  | [], acc => acc
  | i :: rest, (bi, bv) =>
      if valf i > bv then bestFold valf rest (some i, valf i)
      else bestFold valf rest (bi, bv)

/-- The chosen `best_i` of one MMR iteration; `none` models Python's `None`
surviving the scan (every value at or below the `-1e18` sentinel). -/
noncomputable def bestIdx (valf : ℕ → ℝ) (avail : List ℕ) : Option ℕ :=
  (bestFold valf avail (none, -(10 ^ 18 : ℝ))).1

/-- The `while avail and len(selected) < k` loop (retrieval.py lines 81-100).
`fuel` is `avail.length` at entry, which the loop never exhausts because each
iteration removes the chosen index; a `none` result models the uncaught
`ValueError` of `avail.remove(None)` when no candidate beat the sentinel. -/
noncomputable def mmrLoop (vecs : List Profile) (urls : List String) (rels : List ℚ)
    (lambda_ : ℚ) (k : ℕ) :
    ℕ → List ℕ → List ℕ → Option (List ℕ)
  | 0, selected, avail =>
      if avail = [] ∨ ¬ selected.length < k then some selected else none
  | fuel + 1, selected, avail =>
      if avail = [] ∨ ¬ selected.length < k then some selected
      else
        match bestIdx (mmrVal vecs urls rels lambda_ selected) avail with
        | none => none
        | some b => mmrLoop vecs urls rels lambda_ k fuel (selected ++ [b]) (avail.erase b)

/-- `mmr_select_url_aware` (retrieval.py lines 64-102).  The unused Python
parameter `q_vec` is omitted.  `some r` is a normal return of selection `r`
in the order chosen; `none` is the uncaught `ValueError` described at
`mmrLoop`.  The `match` arm for an empty `idx` is unreachable (`n ≥ 1`). -/
noncomputable def mmr_select_url_aware (scored : List Cand) (k : ℤ) (lambda_ : ℚ) :
    Option (List Cand) :=
  let n := scored.length
  if n = 0 ∨ k ≤ 0 then some []
  else
    let kk := min k.toNat n
    let idx := sortDescBy (fun i => (scored.getD i dCand).score) (List.range n)
    let vecs := scored.map (fun c => c.tfidf)
    let rels := scored.map (fun c => c.score)
    let urls := scored.map (fun c => c.meta.url)
    match idx with
    | [] => some []
    | i0 :: rest =>
        (mmrLoop vecs urls rels lambda_ kk rest.length [i0] rest).map
          (fun sel => sel.map (fun i => scored.getD i dCand))

/-- One row of the vector store's answer (retrieval.py lines 115-124):
`id, title, document, url, tag, version` plus the `1 - distance` score.
Nullable columns are `Option`; the score column is always produced by the
SQL expression. -/
structure Row where
  id : Option String
  title : Option String
  url : Option String
  document : Option String
  tag : Option String
  version : Option String
  score : ℚ
deriving DecidableEq

def dRow : Row :=
  { id := none, title := none, url := none, document := none,
    tag := none, version := none, score := 0 }

/-- A row after the post-processing loop of `vector_candidates`
(retrieval.py lines 125-136): `document` replaced by the combined
`TITLE/URL/CONTENT` text and `metadata["url"]` set to the stripped URL.
The `tag`/`version` metadata entries are dropped here because nothing
downstream of `vector_candidates` reads them. -/
structure FetchedRow where
  id : Option String
  document : String
  metaUrl : String
  score : ℚ
deriving DecidableEq

/-- The per-row transformation of `vector_candidates`
(retrieval.py lines 125-136): strip title/url/document and build
`combined_text = f"TITLE: {title}\nURL: {url}\nCONTENT:\n{doc}"`. -/
def fetchTransform (rows : List Row) : List FetchedRow :=
  rows.map (fun r =>
    let title := pyStrip (r.title.getD "")
    let url := pyStrip (r.url.getD "")
    let doc := pyStrip (r.document.getD "")
    { id := r.id,
      document := "TITLE: " ++ title ++ "\nURL: " ++ url ++ "\nCONTENT:\n" ++ doc,
      metaUrl := url,
      score := r.score })

/-- The candidate-preparation loop of `hybrid_retrieve_pg`
(retrieval.py lines 163-173).  `text = r.get("document") or ""` is the
combined document (never falsy after `fetchTransform`);
`str(r.get("id")) if r.get("id") else None` keeps a truthy id;
`float(r.get("score") or 0.0)` is the row score (identity on `ℚ`). -/
def candsOf (base : List FetchedRow) : List Cand :=
  base.map (fun r =>
    let text := r.document
    let tf := _tf_dict text
    let meta : Meta :=
      { id := match r.id with
              | some s => if s = "" then none else some s
              | none => none,
        url := r.metaUrl,
        score := r.score,
        tfidf := tf }
    { text := text, score := meta.score, tfidf := meta.tfidf, meta := meta })

/-- `raw_url = s["meta"]["url"] or s["meta"]["id"] or ""`
(retrieval.py line 181). -/
def rawKey (m : Meta) : String :=
  if m.url ≠ "" then m.url else m.id.getD ""

/-- `raw_url.strip().lower().rstrip("/")` (retrieval.py line 182):
the merge key normalization. -/
def normKey (s : String) : String :=
  pyRstripSlash (pyLower (pyStrip s))

/-- The normalized merge key of a selected candidate. -/
def keyOf (c : Cand) : String := normKey (rawKey c.meta)

/-- One value of `merged_by_url` (retrieval.py line 179): the defaultdict
initializer is `{"text": "", "meta": None, "score": 0.0}`; `meta` stays
`Option` because Python stores `None` until a member is written. -/
structure MGroup where
  text : String
  meta : Option Meta
  score : ℚ
deriving DecidableEq

/-- The merge key a group would get if fed back through the merger
(recomputed from its retained `meta`). -/
def groupKey (g : MGroup) : String :=
  normKey (match g.meta with | some m => rawKey m | none => "")

/-- Association lookup in the insertion-ordered model of `merged_by_url`. -/
def lookupG (acc : List (String × MGroup)) (k : String) : Option MGroup :=
  (acc.find? (fun p => p.1 = k)).map Prod.snd

/-- In-place update of the entry with key `k`. -/
def updateG (acc : List (String × MGroup)) (k : String) (g : MGroup) :
    List (String × MGroup) :=
  acc.map (fun p => if p.1 = k then (k, g) else p)

/-- One iteration of the merge loop (retrieval.py lines 180-190).  A fresh
key appends a new entry (the defaultdict creates it at first access; its
`""` text sends the code into the `else` branch, which overwrites text,
meta and score).  An existing entry with truthy text appends
`"\n" + s["text"]` and takes the max score; an existing entry whose text is
falsy is overwritten exactly like a fresh one. -/
def mergeStep (acc : List (String × MGroup)) (s : Cand) : List (String × MGroup) :=
  let key := keyOf s
  match lookupG acc key with
  | none => acc ++ [(key, { text := s.text, meta := some s.meta, score := s.score })]
  | some g =>
      if g.text ≠ "" then
        updateG acc key
          { text := g.text ++ "\n" ++ s.text, meta := g.meta, score := max g.score s.score }
      else
        updateG acc key { text := s.text, meta := some s.meta, score := s.score }

/-- The grouping stage of the Source Merger: `merged_by_url` after the loop,
as an insertion-ordered association list. -/
def mergeFold (sel : List Cand) : List (String × MGroup) :=
  sel.foldl mergeStep []

/-- The full Source Merger (retrieval.py lines 179-195): group by normalized
key, then `sorted(merged_by_url.values(), key=score, reverse=True)`. -/
def mergeSel (sel : List Cand) : List MGroup :=
  sortDescBy (fun g => g.score) ((mergeFold sel).map Prod.snd)

/-- The Result Formatter (retrieval.py line 196):
`out = [(v["text"], v["meta"]) for v in final]`. -/
def formatOut (gs : List MGroup) : List (String × Option Meta) :=
  gs.map (fun g => (g.text, g.meta))

/-- Merged groups viewed again as merger input, for re-merging: the Python
group dicts carry exactly the `text`/`meta`/`score` keys the merge loop
reads (no `tfidf`, which the merger never touches). -/
def groupsToCands (gs : List MGroup) : List Cand :=
  gs.map (fun g =>
    { text := g.text, score := g.score, tfidf := [], meta := g.meta.getD dMeta })

/-- `hybrid_retrieve_pg` up to and including the MMR call
(retrieval.py lines 142-176): the selection fed to the Source Merger.
`fetch` is the outcome of `vector_candidates` (`.error` = the exception
caught at line 147, turning `base` into `[]`).  The selection uses
`k = max(top_k, 5)` (line 176). -/
noncomputable def hybridSelected (fetch : Except String (List Row)) (query : String)
    (top_k : ℤ) (mmr_lambda : ℚ) : Option (List Cand) :=
  let base : List FetchedRow :=
    match fetch with
    | .error _ => []
    | .ok rows => fetchTransform rows
  if base = [] then some []
  else mmr_select_url_aware (candsOf base) (max top_k 5) mmr_lambda

/-- `hybrid_retrieve_pg` (retrieval.py lines 142-202).  The `query`
parameter only feeds the external embedding call and the unused `q_vec`,
so it does not influence the modelled post-fetch computation.  `none` is
an uncaught exception (only the MMR `ValueError` path); `some []` is the
empty-result return of line 156; otherwise the merged, sorted, formatted
`(text, metadata)` pairs of line 196. -/
noncomputable def hybrid_retrieve_pg (fetch : Except String (List Row)) (query : String)
    (top_k : ℤ) (mmr_lambda : ℚ) : Option (List (String × Option Meta)) :=
  match hybridSelected fetch query top_k mmr_lambda with
  | none => none
  | some sel => some (formatOut (mergeSel sel))

/-- Concrete single row used for the C4 counterexample. -/
def rowC4 : Row :=
  { id := some "1", title := none, url := some "u", document := some "d",
    tag := none, version := none, score := 1/2 }

/-- Concrete two-candidate pool for the C2 witness. -/
def wC2a : Cand :=
  { text := "a", score := 1, tfidf := [("a", 1)],
    meta := { id := some "1", url := "u", score := 1, tfidf := [("a", 1)] } }

def wC2b : Cand :=
  { text := "b", score := 2, tfidf := [("b", 1)],
    meta := { id := some "2", url := "v", score := 2, tfidf := [("b", 1)] } }

/-- Pool candidate with a score below the `-1e18` sentinel, for the C1
counterexample (score `-2e18`, exactly representable as a float). -/
def cNeg : Cand :=
  { text := "", score := -2000000000000000000, tfidf := [], meta := dMeta }

/-- Newline-style join: `sep.join-separated` concatenation of a list of
strings, the shape the merge loop builds with `text += "\n" + s["text"]`. -/
def joinSep (sep : String) : List String → String
  | [] => ""
  | [x] => x
  | x :: y :: xs => x ++ sep ++ joinSep sep (y :: xs)

/-- What the merge fold guarantees for a stored group `g` under key `k`
after processing the selection prefix `processed`, when all processed texts
are non-empty: the group's members are exactly the processed candidates
with normalized key `k`, in selection order; its text is their newline
join, its score their maximum, and its meta the first member's meta. -/
def GroupSpec (processed : List Cand) (k : String) (g : MGroup) : Prop :=
  processed.filter (fun s => keyOf s = k) ≠ [] ∧
  g.text = joinSep "\n"
    ((processed.filter (fun s => keyOf s = k)).map (fun s => s.text)) ∧
  g.score = pymaxQ ((processed.filter (fun s => keyOf s = k)).map (fun s => s.score)) ∧
  (∃ m, (processed.filter (fun s => keyOf s = k)).head? = some m ∧
    g.meta = some m.meta) ∧
  g.text ≠ ""

/-- Concrete single rows for the merge-related witnesses. -/
def rowC6 : Row :=
  { id := some "9", title := some "t", url := some "w", document := some "x",
    tag := none, version := none, score := 3/4 }

def rowC8 : Row :=
  { id := some "8", title := some "h", url := some "y", document := some "z",
    tag := none, version := none, score := 2/3 }

def rowC9 : Row :=
  { id := some "5", title := some "m", url := some "v", document := some "w",
    tag := none, version := none, score := 1/3 }

/-- Three store rows for the C9 counterexample: two of them share the
source `q` up to letter case (urls `q` and `Q`), so the merger groups them
while the MMR URL check (exact string equality) does not attenuate their
similarity; the profiles are arranged so MMR picks the lower-scored member
of the `q` group first. -/
def rowX0 : Row :=
  { id := some "1", title := none, url := some "p", document := none,
    tag := none, version := none, score := 1 }

def rowX1 : Row :=
  { id := some "2", title := none, url := some "q", document := none,
    tag := none, version := none, score := 9/10 }

def rowX2 : Row :=
  { id := some "3", title := none, url := some "Q",
    document := some "x x y y z z",
    tag := none, version := none, score := 22/25 }

def rows9 : List Row := [rowX0, rowX1, rowX2]

/-- The three candidates' term-frequency profiles. -/
def PX0 : Profile :=
  [("title:", 1/4), ("url:", 1/4), ("p", 1/4), ("content:", 1/4)]

def PX1 : Profile :=
  [("title:", 1/4), ("url:", 1/4), ("q", 1/4), ("content:", 1/4)]

def PX2 : Profile :=
  [("title:", 1/10), ("url:", 1/10), ("q", 1/10), ("content:", 1/10),
   ("x", 1/5), ("y", 1/5), ("z", 1/5)]

def cand90 : Cand :=
  { text := "TITLE: \nURL: p\nCONTENT:\n", score := 1, tfidf := PX0,
    meta := { id := some "1", url := "p", score := 1, tfidf := PX0 } }

def cand91 : Cand :=
  { text := "TITLE: \nURL: q\nCONTENT:\n", score := 9/10, tfidf := PX1,
    meta := { id := some "2", url := "q", score := 9/10, tfidf := PX1 } }

def cand92 : Cand :=
  { text := "TITLE: \nURL: Q\nCONTENT:\nx x y y z z", score := 22/25,
    tfidf := PX2,
    meta := { id := some "3", url := "Q", score := 22/25, tfidf := PX2 } }

/-- The selection MMR produces on `rows9` with `top_k = 2`:
the `Q` candidate (score 22/25) is chosen before the higher-scored `q`
candidate (9/10) because the latter is more similar to the seed. -/
def sel9 : List Cand := [cand90, cand92, cand91]

/-- The merged group of the two same-source (`q`) candidates. -/
def gQ : MGroup := (mergeSel sel9).getD 1 { text := "", meta := none, score := 0 }

/-- The `urls` list `mmr_select_url_aware` builds (retrieval.py line 77)
when `hybrid_retrieve_pg` hands it the prepared candidates of the fetched
rows. -/
def pipelineUrls (rows : List Row) : List String :=
  (candsOf (fetchTransform rows)).map (fun c => c.meta.url)

/-- The `vecs` list `mmr_select_url_aware` builds (retrieval.py line 75)
for the same pool. -/
def pipelineVecs (rows : List Row) : List Profile :=
  (candsOf (fetchTransform rows)).map (fun c => c.tfidf)

-- ## Theorems

/-- C3: for every `count ≥ 1` the source-repeat attenuation factor computed
during MMR (`repeatFactor`, used by `pairSim` inside `mmr_select_url_aware`)
equals `0.2 + 0.1 / count` exactly as rational arithmetic; in particular it
is `0.3` at `count = 1` and `0.22` at `count = 5`. -/
theorem repeat_factor_formula_exact (count : ℕ) (h : 1 ≤ count) :
    repeatFactor count = 0.2 + 0.1 / (count : ℚ) ∧
    repeatFactor 1 = 0.3 ∧ repeatFactor 5 = 0.22 := by
  refine ⟨?_, by norm_num [repeatFactor], by norm_num [repeatFactor]⟩
  unfold repeatFactor
  rw [max_eq_left (by exact_mod_cast h : (1 : ℚ) ≤ (count : ℚ))]

/-- Witness for C3 at `count = 5`. -/
theorem repeat_factor_formula_exact_witness :
    1 ≤ 5 ∧
    (repeatFactor 5 = 0.2 + 0.1 / (5 : ℚ) ∧
     repeatFactor 1 = 0.3 ∧ repeatFactor 5 = 0.22) :=
  ⟨by norm_num, repeat_factor_formula_exact 5 (by norm_num)⟩

/-- C5: when the embedding or nearest-neighbor store call fails (the
exception caught at retrieval.py line 147), `hybrid_retrieve_pg` swallows
the failure and returns the empty result list, for every query and `top_k`;
no exception propagates to the caller. -/
theorem hybrid_fetch_failure_swallowed (q : String) (top_k : ℤ) (lam : ℚ)
    (e : String) :
    hybrid_retrieve_pg (Except.error e) q top_k lam = some [] := rfl

/-- C4 (amended): when the candidate fetch yields no rows,
`hybrid_retrieve_pg` returns the empty result list without error, for every
query and `top_k` — including degenerate ones.  (The original claim fails:
see the counterexample, where `top_k = 0` and an empty query still produce
a non-empty result.) -/
theorem hybrid_no_candidates_returns_empty (q : String) (top_k : ℤ) (lam : ℚ) :
    hybrid_retrieve_pg (Except.ok []) q top_k lam = some [] := rfl

unseal Rat.mul Rat.inv Rat.add Rat.sub in
/-- C4 counterexample: with `top_k = 0` AND an empty query string, but a
store that returns one row, `hybrid_retrieve_pg` does NOT return an empty
result (it clamps the pool bound up to 50, still queries the store, and
selects with `k = max(top_k, 5)`); it also raises no error.  This refutes
the claim that empty query or `top_k ≤ 0` yields an empty result. -/
theorem hybrid_degenerate_input_counterexample :
    hybrid_retrieve_pg (Except.ok [rowC4]) "" 0 (7/10) ≠ some [] ∧
    hybrid_retrieve_pg (Except.ok [rowC4]) "" 0 (7/10) ≠ none := by
  decide

-- ### Stable-sort lemmas

theorem insertDescBy_cons_of_le {α : Type} (key : α → ℚ) (x y : α) (ys : List α)
    (h : key y ≤ key x) : insertDescBy key x (y :: ys) = x :: y :: ys := by
  simp [insertDescBy, h]

theorem insertDescBy_cons_of_gt {α : Type} (key : α → ℚ) (x y : α) (ys : List α)
    (h : ¬ key y ≤ key x) : insertDescBy key x (y :: ys) = y :: insertDescBy key x ys := by
  simp [insertDescBy, h]

/-- The head of the stable descending sort is the earliest maximum: the input
splits as `l₁ ++ m :: l₂` where `m` is the head of the sorted list, no key
exceeds `key m`, and everything before `m` in the input is strictly below it. -/
theorem sortDescBy_head_max {α : Type} (key : α → ℚ) (l : List α) (h : l ≠ []) :
    ∃ l₁ m l₂, l = l₁ ++ m :: l₂ ∧
      (sortDescBy key l).head? = some m ∧
      (∀ j ∈ l, key j ≤ key m) ∧
      (∀ j ∈ l₁, key j < key m) := by
  induction l with
  | nil => exact absurd rfl h
  | cons x xs ih =>
    cases xs with
    | nil => exact ⟨[], x, [], rfl, rfl, by simp, by simp⟩
    | cons y ys =>
      obtain ⟨l₁, m, l₂, hsplit, hhead, hmax, hlt⟩ := ih (by simp)
      obtain ⟨rest, hrest⟩ : ∃ rest, sortDescBy key (y :: ys) = m :: rest := by
        cases hsort : sortDescBy key (y :: ys) with
        | nil => rw [hsort] at hhead; simp at hhead
        | cons a as => rw [hsort] at hhead; simp at hhead; exact ⟨as, by rw [hhead]⟩
      have hunfold : sortDescBy key (x :: y :: ys)
          = insertDescBy key x (sortDescBy key (y :: ys)) := rfl
      by_cases hxm : key m ≤ key x
      · refine ⟨[], x, y :: ys, rfl, ?_, ?_, by simp⟩
        · rw [hunfold, hrest, insertDescBy_cons_of_le key x m rest hxm]
          rfl
        · intro j hj
          rcases List.mem_cons.1 hj with rfl | hj
          · exact le_refl _
          · exact le_trans (hmax j hj) hxm
      · refine ⟨x :: l₁, m, l₂, by rw [hsplit]; simp, ?_, ?_, ?_⟩
        · rw [hunfold, hrest, insertDescBy_cons_of_gt key x m rest hxm]
          rfl
        · intro j hj
          rcases List.mem_cons.1 hj with rfl | hj
          · exact le_of_lt (lt_of_not_le hxm)
          · exact hmax j hj
        · intro j hj
          rcases List.mem_cons.1 hj with rfl | hj
          · exact lt_of_not_le hxm
          · exact hlt j hj

-- ### MMR loop lemmas

/-- The MMR loop only ever appends to the running selection. -/
theorem mmrLoop_prefix (vecs : List Profile) (urls : List String) (rels : List ℚ)
    (lam : ℚ) (k : ℕ) :
    ∀ fuel selected avail out,
      mmrLoop vecs urls rels lam k fuel selected avail = some out →
      selected <+: out := by
  intro fuel
  induction fuel with
  | zero =>
    intro selected avail out h
    simp only [mmrLoop] at h
    split at h
    · cases h; exact List.prefix_refl _
    · cases h
  | succ fuel ih =>
    intro selected avail out h
    simp only [mmrLoop] at h
    split at h
    · cases h; exact List.prefix_refl _
    · cases hb : bestIdx (mmrVal vecs urls rels lam selected) avail with
      | none => simp only [hb] at h; cases h
      | some b =>
        simp only [hb] at h
        exact (List.prefix_append selected [b]).trans (ih _ _ _ h)

/-- C2: whenever `mmr_select_url_aware` returns a selection from a non-empty
pool with `k ≥ 1`, the first selected candidate is the pool entry of maximal
relevance score, and among ties the one earliest in the original pool order
(every earlier entry has a strictly smaller score). -/
theorem mmr_first_selected_max_score (scored : List Cand) (k : ℤ) (lam : ℚ)
    (r : List Cand) (hr : mmr_select_url_aware scored k lam = some r)
    (hne : scored ≠ []) (hk : 1 ≤ k) :
    ∃ i, i < scored.length ∧ r.head? = some (scored.getD i dCand) ∧
      (∀ j, j < scored.length →
        (scored.getD j dCand).score ≤ (scored.getD i dCand).score) ∧
      (∀ j, j < i → (scored.getD j dCand).score < (scored.getD i dCand).score) := by
  have hn : scored.length ≠ 0 := by
    simpa [List.length_eq_zero] using hne
  obtain ⟨l₁, m, l₂, hsplit, hhead, hmax, hlt⟩ :=
    sortDescBy_head_max (fun i => (scored.getD i dCand).score)
      (List.range scored.length) (by simpa [List.range_eq_nil] using hn)
  obtain ⟨rest, hrest⟩ : ∃ rest,
      sortDescBy (fun i => (scored.getD i dCand).score)
        (List.range scored.length) = m :: rest := by
    cases hsort : sortDescBy (fun i => (scored.getD i dCand).score)
        (List.range scored.length) with
    | nil => rw [hsort] at hhead; cases hhead
    | cons a as =>
      rw [hsort] at hhead
      simp only [List.head?_cons, Option.some.injEq] at hhead
      exact ⟨as, by rw [hhead]⟩
  simp only [mmr_select_url_aware] at hr
  rw [if_neg (by push_neg; exact ⟨hn, by omega⟩)] at hr
  rw [hrest] at hr
  simp only [Option.map_eq_some'] at hr
  obtain ⟨sel, hloop, hmap⟩ := hr
  obtain ⟨sel', rfl⟩ : ∃ sel', sel = m :: sel' := by
    obtain ⟨t, ht⟩ := mmrLoop_prefix _ _ _ _ _ _ _ _ _ hloop
    exact ⟨t, ht.symm⟩
  refine ⟨m, ?_, ?_, ?_, ?_⟩
  · have : m ∈ List.range scored.length := by
      rw [hsplit]; exact List.mem_append_right _ (List.mem_cons_self _ _)
    exact List.mem_range.1 this
  · rw [← hmap]; rfl
  · intro j hj
    exact hmax j (List.mem_range.2 hj)
  · intro j hj
    have hml : l₁.length + 1 + l₂.length = scored.length := by
      have := congrArg List.length hsplit
      simp only [List.length_range, List.length_append, List.length_cons] at this
      omega
    have hlm : l₁.length < scored.length := by omega
    have hm_eq : m = l₁.length := by
      have h1 : (List.range scored.length)[l₁.length]? = some l₁.length :=
        List.getElem?_range hlm
      have h2 : (l₁ ++ m :: l₂)[l₁.length]? = some m := by
        rw [List.getElem?_append_right (le_refl _)]
        simp
      rw [hsplit] at h1
      exact Option.some.inj (h2.symm.trans h1)
    have hl₁ : l₁ = List.range m := by
      have h3 : List.take l₁.length (l₁ ++ m :: l₂) = l₁ := List.take_left l₁ (m :: l₂)
      rw [← hsplit] at h3
      rw [List.take_range] at h3
      rw [min_eq_left (le_of_lt hlm)] at h3
      rw [hm_eq]
      exact h3.symm
    exact hlt j (by rw [hl₁]; exact List.mem_range.2 hj)

unseal Rat.mul Rat.inv Rat.add Rat.sub in
/-- Witness for C2: concrete two-candidate pool, `k = 1`; the selection
starts with the higher-scored candidate `wC2b`. -/
theorem mmr_first_selected_max_score_witness :
    mmr_select_url_aware [wC2a, wC2b] 1 (7/10) = some [wC2b] ∧
    ([wC2a, wC2b] : List Cand) ≠ [] ∧ (1 : ℤ) ≤ 1 ∧
    (∃ i, i < ([wC2a, wC2b] : List Cand).length ∧
      ([wC2b] : List Cand).head? = some (([wC2a, wC2b] : List Cand).getD i dCand) ∧
      (∀ j, j < ([wC2a, wC2b] : List Cand).length →
        (([wC2a, wC2b] : List Cand).getD j dCand).score
          ≤ (([wC2a, wC2b] : List Cand).getD i dCand).score) ∧
      (∀ j, j < i →
        (([wC2a, wC2b] : List Cand).getD j dCand).score
          < (([wC2a, wC2b] : List Cand).getD i dCand).score)) :=
  ⟨by decide, by decide, by decide,
   mmr_first_selected_max_score [wC2a, wC2b] 1 (7/10) [wC2b]
     (by decide) (by decide) (by decide)⟩

-- ### Permutation and length facts about the stable sort

theorem insertDescBy_perm {α : Type} (key : α → ℚ) (x : α) (l : List α) :
    List.Perm (insertDescBy key x l) (x :: l) := by
  induction l with
  | nil => rfl
  | cons y ys ih =>
    simp only [insertDescBy]
    split
    · rfl
    · exact (List.Perm.cons y ih).trans (List.Perm.swap x y ys)

theorem sortDescBy_perm {α : Type} (key : α → ℚ) (l : List α) :
    List.Perm (sortDescBy key l) l := by
  induction l with
  | nil => rfl
  | cons x xs ih =>
    exact (insertDescBy_perm key x (sortDescBy key xs)).trans (List.Perm.cons x ih)

-- ### The cosine similarity never exceeds 1 (Cauchy-Schwarz)

theorem lookupQ_nil (t : String) : lookupQ [] t = 0 := rfl

theorem lookupQ_cons (p : String × ℚ) (a : Profile) (t : String) :
    lookupQ (p :: a) t = if p.1 = t then p.2 else lookupQ a t := by
  by_cases h : p.1 = t
  · simp [lookupQ, List.find?_cons, h]
  · simp [lookupQ, List.find?_cons, h]

theorem firstSeen_nodup_aux (l : List String) :
    ∀ acc : List String, acc.Nodup →
      (l.foldl (fun acc k => if k ∈ acc then acc else acc ++ [k]) acc).Nodup := by
  induction l with
  | nil => intro acc h; exact h
  | cons x xs ih =>
    intro acc h
    simp only [List.foldl]
    by_cases hx : x ∈ acc
    · rw [if_pos hx]; exact ih acc h
    · rw [if_neg hx]
      refine ih _ (List.nodup_append.2 ⟨h, List.nodup_singleton x, ?_⟩)
      intro a ha hax
      simp only [List.mem_singleton] at hax
      exact hx (hax ▸ ha)

theorem firstSeen_nodup (l : List String) : (firstSeen l).Nodup :=
  firstSeen_nodup_aux l [] List.nodup_nil

theorem sumSq_nonneg (a : Profile) : 0 ≤ sumSq a := by
  refine List.sum_nonneg ?_
  intro x hx
  obtain ⟨p, _, rfl⟩ := List.mem_map.1 hx
  exact mul_self_nonneg p.2

/-- Sum of squared looked-up values over any finite key set is bounded by
the full sum of squares of the profile. -/
theorem sum_lookup_sq_le (a : Profile) : ∀ D : Finset String,
    (∑ t ∈ D, (lookupQ a t)^2) ≤ sumSq a := by
  induction a with
  | nil =>
    intro D
    simp [lookupQ_nil, sumSq]
  | cons p a' ih =>
    intro D
    have hstep : ∀ t, t ≠ p.1 → lookupQ (p :: a') t = lookupQ a' t := by
      intro t ht
      rw [lookupQ_cons, if_neg (fun he => ht he.symm)]
    have hsum : sumSq (p :: a') = p.2 * p.2 + sumSq a' := by
      simp [sumSq]
    by_cases hp : p.1 ∈ D
    · rw [← Finset.sum_erase_add D _ hp]
      have h1 : (∑ t ∈ D.erase p.1, (lookupQ (p :: a') t)^2)
          = ∑ t ∈ D.erase p.1, (lookupQ a' t)^2 :=
        Finset.sum_congr rfl (fun t ht => by
          rw [hstep t (Finset.ne_of_mem_erase ht)])
      have h2 : lookupQ (p :: a') p.1 = p.2 := by
        rw [lookupQ_cons, if_pos rfl]
      rw [h1, h2, hsum]
      have h3 := ih (D.erase p.1)
      nlinarith [sq_nonneg p.2]
    · have h1 : (∑ t ∈ D, (lookupQ (p :: a') t)^2)
          = ∑ t ∈ D, (lookupQ a' t)^2 :=
        Finset.sum_congr rfl (fun t ht =>
          by rw [hstep t (fun he => hp (he ▸ ht))])
      rw [h1, hsum]
      have h3 := ih D
      nlinarith [mul_self_nonneg p.2]

/-- Cauchy-Schwarz for the common-key dot product of two profiles. -/
theorem dotCommon_sq_le (a b : Profile) :
    (dotCommon a b)^2 ≤ sumSq a * sumSq b := by
  have hnd : ((keysDedup a).filter (fun t => memKey b t)).Nodup :=
    (firstSeen_nodup _).filter _
  have hsum : dotCommon a b =
      ∑ t ∈ ((keysDedup a).filter (fun t => memKey b t)).toFinset,
        lookupQ a t * lookupQ b t := by
    rw [dotCommon, ← List.sum_toFinset _ hnd]
  rw [hsum]
  calc (∑ t ∈ ((keysDedup a).filter (fun t => memKey b t)).toFinset,
          lookupQ a t * lookupQ b t)^2
      ≤ (∑ t ∈ ((keysDedup a).filter (fun t => memKey b t)).toFinset,
          (lookupQ a t)^2) *
        (∑ t ∈ ((keysDedup a).filter (fun t => memKey b t)).toFinset,
          (lookupQ b t)^2) :=
        Finset.sum_mul_sq_le_sq_mul_sq _ _ _
    _ ≤ sumSq a * sumSq b := by
        have hDa := sum_lookup_sq_le a
          ((keysDedup a).filter (fun t => memKey b t)).toFinset
        have hDb := sum_lookup_sq_le b
          ((keysDedup a).filter (fun t => memKey b t)).toFinset
        have h0 : (0:ℚ) ≤ ∑ t ∈ ((keysDedup a).filter
            (fun t => memKey b t)).toFinset, (lookupQ b t)^2 :=
          Finset.sum_nonneg fun t _ => sq_nonneg _
        exact mul_le_mul hDa hDb h0 (sumSq_nonneg a)

theorem pyNorm_pos (a : Profile) : 0 < pyNorm a := by
  rw [pyNorm]
  split
  · norm_num
  · next h => exact lt_of_le_of_ne (Real.sqrt_nonneg _) (Ne.symm h)

theorem sqrt_le_pyNorm (a : Profile) :
    Real.sqrt ((sumSq a : ℚ) : ℝ) ≤ pyNorm a := by
  rw [pyNorm]
  split
  · next h => rw [h]; norm_num
  · exact le_refl _

/-- The cosine similarity of `_cosine` is at most 1. -/
theorem pyCosine_le_one (a b : Profile) : pyCosine a b ≤ 1 := by
  rw [pyCosine]
  split
  · norm_num
  · rw [div_le_one (mul_pos (pyNorm_pos a) (pyNorm_pos b))]
    by_cases hd : dotCommon a b ≤ 0
    · calc ((dotCommon a b : ℚ) : ℝ) ≤ 0 := by exact_mod_cast hd
        _ ≤ pyNorm a * pyNorm b :=
          le_of_lt (mul_pos (pyNorm_pos a) (pyNorm_pos b))
    · have hcs : ((dotCommon a b : ℚ) : ℝ)
          ≤ Real.sqrt ((sumSq a : ℚ) : ℝ) * Real.sqrt ((sumSq b : ℚ) : ℝ) := by
        rw [← Real.sqrt_mul (by exact_mod_cast sumSq_nonneg a)]
        refine Real.le_sqrt_of_sq_le ?_
        have := dotCommon_sq_le a b
        exact_mod_cast this
      calc ((dotCommon a b : ℚ) : ℝ)
          ≤ Real.sqrt ((sumSq a : ℚ) : ℝ) * Real.sqrt ((sumSq b : ℚ) : ℝ) := hcs
        _ ≤ pyNorm a * pyNorm b :=
          mul_le_mul (sqrt_le_pyNorm a) (sqrt_le_pyNorm b)
            (Real.sqrt_nonneg _) (le_of_lt (pyNorm_pos a))

theorem repeatFactor_nonneg (c : ℕ) : 0 ≤ repeatFactor c := by
  have h1 : (1:ℚ) ≤ max (c:ℚ) 1 := le_max_right _ _
  have : (0:ℚ) ≤ 0.1 / max (c:ℚ) 1 := div_nonneg (by norm_num) (by linarith)
  rw [repeatFactor]; linarith

theorem repeatFactor_le_one (c : ℕ) : repeatFactor c ≤ 1 := by
  have h1 : (1:ℚ) ≤ max (c:ℚ) 1 := le_max_right _ _
  have : (0.1:ℚ) / max (c:ℚ) 1 ≤ 0.1 := div_le_self (by norm_num) h1
  rw [repeatFactor]; linarith

theorem pairSim_le_one (vecs : List Profile) (urls : List String) (i j : ℕ) :
    pairSim vecs urls i j ≤ 1 := by
  rw [pairSim]
  split
  · by_cases hc : pyCosine (vecs.getD i []) (vecs.getD j []) ≤ 0
    · have hf : (0:ℝ) ≤ ((repeatFactor (urls.count (urls.getD i "")) : ℚ) : ℝ) := by
        exact_mod_cast repeatFactor_nonneg _
      calc pyCosine (vecs.getD i []) (vecs.getD j []) *
            ((repeatFactor (urls.count (urls.getD i "")) : ℚ) : ℝ)
          ≤ 0 := mul_nonpos_of_nonpos_of_nonneg hc hf
        _ ≤ 1 := by norm_num
    · refine mul_le_one₀ (pyCosine_le_one _ _) ?_ ?_
      · exact_mod_cast repeatFactor_nonneg _
      · exact_mod_cast repeatFactor_le_one _
  · exact pyCosine_le_one _ _

theorem foldl_max_le (c : ℝ) :
    ∀ (l : List ℝ) (x : ℝ), x ≤ c → (∀ z ∈ l, z ≤ c) → l.foldl max x ≤ c := by
  intro l
  induction l with
  | nil => intro x hx _; exact hx
  | cons y ys ih =>
    intro x hx h
    rw [List.foldl_cons]
    exact ih (max x y) (max_le hx (h y (by simp)))
      (fun z hz => h z (by simp [hz]))

theorem pymaxR_le (l : List ℝ) (c : ℝ) (hc : 0 ≤ c) (h : ∀ x ∈ l, x ≤ c) :
    pymaxR l ≤ c := by
  cases l with
  | nil => exact hc
  | cons x xs =>
    rw [pymaxR]
    exact foldl_max_le c xs x (h x (by simp)) (fun z hz => h z (by simp [hz]))

theorem divPenalty_le_one (vecs : List Profile) (urls : List String)
    (selected : List ℕ) (i : ℕ) : divPenalty vecs urls selected i ≤ 1 := by
  rw [divPenalty]
  split
  · norm_num
  · refine pymaxR_le _ 1 (by norm_num) ?_
    intro x hx
    obtain ⟨j, _, rfl⟩ := List.mem_map.1 hx
    exact pairSim_le_one vecs urls i j

/-- With `λ ∈ [0,1]` and pool scores within `[-(10^17), 10^17]`, every MMR
value stays strictly above the `-1e18` sentinel. -/
theorem mmrVal_gt_sentinel (vecs : List Profile) (urls : List String)
    (rels : List ℚ) (lam : ℚ) (sel : List ℕ) (i : ℕ)
    (hlam : 0 ≤ lam) (hlam1 : lam ≤ 1)
    (hrels : ∀ x ∈ rels, -(10^17 : ℚ) ≤ x ∧ x ≤ 10^17) :
    mmrVal vecs urls rels lam sel i > -(10^18 : ℝ) := by
  rw [mmrVal]
  have hdiv := divPenalty_le_one vecs urls sel i
  have hrel : -(10^17:ℚ) ≤ rels.getD i 0 ∧ rels.getD i 0 ≤ 10^17 := by
    by_cases hi : i < rels.length
    · rw [List.getD_eq_getElem rels 0 hi]
      exact hrels _ (List.getElem_mem _)
    · rw [List.getD_eq_default rels 0 (le_of_not_lt hi)]
      norm_num
  have hr1 : (-(10^17 : ℝ)) ≤ ((rels.getD i 0 : ℚ) : ℝ) := by exact_mod_cast hrel.1
  have hr2 : ((rels.getD i 0 : ℚ) : ℝ) ≤ (10^17 : ℝ) := by exact_mod_cast hrel.2
  have hl0 : (0:ℝ) ≤ (lam : ℝ) := by exact_mod_cast hlam
  have hl1 : (lam : ℝ) ≤ 1 := by exact_mod_cast hlam1
  nlinarith [hdiv, hr1, hr2, hl0, hl1]

-- ### The best-candidate scan

theorem bestFold_some_of_some (valf : ℕ → ℝ) :
    ∀ l (i : ℕ) (bv : ℝ), (bestFold valf l (some i, bv)).1.isSome := by
  intro l
  induction l with
  | nil => intro i bv; rfl
  | cons j rest ih =>
    intro i bv
    rw [bestFold]
    split
    · exact ih j _
    · exact ih i bv

theorem bestIdx_isSome (valf : ℕ → ℝ) (a : ℕ) (rest : List ℕ)
    (h : valf a > -(10^18 : ℝ)) : (bestIdx valf (a :: rest)).isSome := by
  rw [bestIdx, bestFold, if_pos h]
  exact bestFold_some_of_some valf rest a _

theorem bestFold_mem (valf : ℕ → ℝ) :
    ∀ l (bi : Option ℕ) (bv : ℝ) (b : ℕ),
      (bestFold valf l (bi, bv)).1 = some b → b ∈ l ∨ bi = some b := by
  intro l
  induction l with
  | nil => intro bi bv b h; exact Or.inr h
  | cons i rest ih =>
    intro bi bv b h
    rw [bestFold] at h
    split at h
    · rcases ih _ _ _ h with hm | he
      · exact Or.inl (List.mem_cons_of_mem _ hm)
      · exact Or.inl (by rw [Option.some.inj he]; exact List.mem_cons_self _ _)
    · rcases ih _ _ _ h with hm | he
      · exact Or.inl (List.mem_cons_of_mem _ hm)
      · exact Or.inr he

theorem bestIdx_mem (valf : ℕ → ℝ) (avail : List ℕ) (b : ℕ)
    (h : bestIdx valf avail = some b) : b ∈ avail := by
  rcases bestFold_mem valf avail none _ b h with hm | he
  · exact hm
  · cases he

/-- When every MMR value beats the sentinel, the loop always finds a best
candidate, removes it from the pool, and terminates with exactly
`selected.length + min (k - selected.length) avail.length` indices. -/
theorem mmrLoop_some_length (vecs : List Profile) (urls : List String)
    (rels : List ℚ) (lam : ℚ) (k : ℕ)
    (hval : ∀ sel i, mmrVal vecs urls rels lam sel i > -(10^18 : ℝ)) :
    ∀ fuel selected avail, avail.length ≤ fuel →
      ∃ out, mmrLoop vecs urls rels lam k fuel selected avail = some out ∧
        out.length = selected.length + min (k - selected.length) avail.length := by
  intro fuel
  induction fuel with
  | zero =>
    intro selected avail hlen
    have hav : avail = [] := List.length_eq_zero.1 (Nat.le_zero.1 hlen)
    subst hav
    exact ⟨selected, by simp [mmrLoop], by simp⟩
  | succ fuel ih =>
    intro selected avail hlen
    by_cases hguard : avail = [] ∨ ¬ selected.length < k
    · refine ⟨selected, ?_, ?_⟩
      · simp only [mmrLoop]
        rw [if_pos hguard]
      · rcases hguard with h | h
        · subst h; simp
        · have hk0 : k - selected.length = 0 := by omega
          simp [hk0]
    · push_neg at hguard
      obtain ⟨hne, hlt⟩ := hguard
      obtain ⟨a, rest, rfl⟩ := List.exists_cons_of_ne_nil hne
      have hbs : (bestIdx (mmrVal vecs urls rels lam selected) (a :: rest)).isSome :=
        bestIdx_isSome _ _ _ (hval _ _)
      obtain ⟨b, hb⟩ := Option.isSome_iff_exists.1 hbs
      have hbmem : b ∈ a :: rest := bestIdx_mem _ _ _ hb
      have herase : ((a :: rest).erase b).length = (a :: rest).length - 1 :=
        List.length_erase_of_mem hbmem
      obtain ⟨out, hout, hlen'⟩ := ih (selected ++ [b]) ((a :: rest).erase b)
        (by
          rw [herase]
          simp only [List.length_cons] at hlen ⊢
          omega)
      refine ⟨out, ?_, ?_⟩
      · simp only [mmrLoop]
        rw [if_neg (by push_neg; exact ⟨by simp, hlt⟩)]
        rw [hb]
        exact hout
      · rw [hlen']
        rw [herase]
        have e1 : (selected ++ [b]).length = selected.length + 1 := by simp
        have e2 : (a :: rest).length = rest.length + 1 := by simp
        rw [e1, e2]
        simp only [Nat.add_sub_cancel]
        omega

/-- C1 (amended): for every pool whose scores lie within `[-(10^17), 10^17]`
(which covers every score the pipeline can produce, nominally `[0,1]`) and
`λ ∈ [0,1]`: an empty pool or `k ≤ 0` yields the empty selection, and a
non-empty pool with `k ≥ 1` yields a selection of exactly `min(k, n)`
candidates.  (The unrestricted claim is refuted by the sentinel
counterexample: scores at `-2·10^18` make the loop's best-candidate scan
return Python `None`, and `avail.remove(None)` raises `ValueError`.) -/
theorem mmr_selection_size (scored : List Cand) (k : ℤ) (lam : ℚ)
    (hlam : 0 ≤ lam ∧ lam ≤ 1)
    (hs : ∀ c ∈ scored, -(10^17 : ℚ) ≤ c.score ∧ c.score ≤ 10^17) :
    ((scored = [] ∨ k ≤ 0) → mmr_select_url_aware scored k lam = some []) ∧
    (scored ≠ [] → 1 ≤ k →
      ∃ r, mmr_select_url_aware scored k lam = some r ∧
        r.length = min k.toNat scored.length) := by
  constructor
  · intro h
    have : scored.length = 0 ∨ k ≤ 0 := by
      rcases h with h | h
      · exact Or.inl (by simp [h])
      · exact Or.inr h
    simp only [mmr_select_url_aware]
    rw [if_pos this]
  · intro hne hk
    have hn : scored.length ≠ 0 := by simpa [List.length_eq_zero] using hne
    have hval : ∀ sel i,
        mmrVal (scored.map (fun c => c.tfidf)) (scored.map (fun c => c.meta.url))
          (scored.map (fun c => c.score)) lam sel i > -(10^18 : ℝ) := by
      intro sel i
      refine mmrVal_gt_sentinel _ _ _ _ _ _ hlam.1 hlam.2 ?_
      intro x hx
      obtain ⟨c, hc, rfl⟩ := List.mem_map.1 hx
      exact hs c hc
    obtain ⟨rest0, hrest0⟩ : ∃ rest0,
        sortDescBy (fun i => (scored.getD i dCand).score)
          (List.range scored.length) = rest0 := ⟨_, rfl⟩
    cases rest0 with
    | nil =>
      exfalso
      have := (sortDescBy_perm (fun i => (scored.getD i dCand).score)
        (List.range scored.length)).length_eq
      rw [hrest0] at this
      simp only [List.length_nil, List.length_range] at this
      exact hn this.symm
    | cons i0 rest =>
      obtain ⟨out, hout, hlenout⟩ := mmrLoop_some_length
        (scored.map (fun c => c.tfidf)) (scored.map (fun c => c.meta.url))
        (scored.map (fun c => c.score)) lam (min k.toNat scored.length) hval
        rest.length [i0] rest (le_refl _)
      refine ⟨out.map (fun i => scored.getD i dCand), ?_, ?_⟩
      · simp only [mmr_select_url_aware]
        rw [if_neg (by push_neg; exact ⟨hn, by omega⟩)]
        rw [hrest0]
        simp only [hout, Option.map_some']
      · rw [List.length_map, hlenout]
        have hlen_eq : rest.length + 1 = scored.length := by
          have := (sortDescBy_perm (fun i => (scored.getD i dCand).score)
            (List.range scored.length)).length_eq
          rw [hrest0] at this
          simp only [List.length_cons, List.length_range] at this
          omega
        have hk1 : 1 ≤ k.toNat := by omega
        simp only [List.length_singleton]
        omega

unseal Rat.mul Rat.inv Rat.add Rat.sub in
/-- Witness for C1 (amended) on a concrete pool with `k = 3 > n = 2`. -/
theorem mmr_selection_size_witness :
    ((0:ℚ) ≤ 7/10 ∧ (7/10:ℚ) ≤ 1) ∧
    (∀ c ∈ ([wC2a, wC2b] : List Cand),
      -(10^17 : ℚ) ≤ c.score ∧ c.score ≤ 10^17) ∧
    ((([wC2a, wC2b] : List Cand) = [] ∨ (3:ℤ) ≤ 0 →
        mmr_select_url_aware [wC2a, wC2b] 3 (7/10) = some []) ∧
     (([wC2a, wC2b] : List Cand) ≠ [] → 1 ≤ (3:ℤ) →
        ∃ r, mmr_select_url_aware [wC2a, wC2b] 3 (7/10) = some r ∧
          r.length = min (3:ℤ).toNat ([wC2a, wC2b] : List Cand).length)) :=
  ⟨⟨by norm_num, by norm_num⟩, by decide,
   mmr_selection_size [wC2a, wC2b] 3 (7/10) ⟨by norm_num, by norm_num⟩ (by decide)⟩

/-- C1 counterexample: a two-candidate pool whose scores sit below the
`-1e18` sentinel makes every scanned MMR value fail the strict
`val > best_val` test, so `best_i` stays Python `None` and
`avail.remove(None)` raises `ValueError`: the function returns no selection
at all, refuting the unrestricted `|selected| = min(k, n)` claim. -/
theorem mmr_sentinel_crash_counterexample :
    mmr_select_url_aware [cNeg, cNeg] 2 (7/10) = none := by
  have hsort : sortDescBy
      (fun i => (([cNeg, cNeg] : List Cand).getD i dCand).score)
      (List.range ([cNeg, cNeg] : List Cand).length) = [0, 1] := by decide
  have hval1 : mmrVal [[], []] ["", ""] [cNeg.score, cNeg.score] (7/10) [0] 1
      = (7/10 : ℝ) * ((cNeg.score : ℚ) : ℝ) := by
    rw [mmrVal, divPenalty]
    rw [if_pos (by decide : ([[], []] : List Profile).getD 1 [] = [])]
    rw [show ([cNeg.score, cNeg.score] : List ℚ).getD 1 0 = cNeg.score from rfl]
    ring
  have hbest : bestIdx (mmrVal [[], []] ["", ""] [cNeg.score, cNeg.score] (7/10) [0]) [1]
      = none := by
    rw [bestIdx, bestFold]
    rw [if_neg ?hlt]
    case hlt =>
      rw [hval1]
      rw [show cNeg.score = (-2000000000000000000 : ℚ) from rfl]
      push_cast
      norm_num
    rfl
  have hloop : mmrLoop [[], []] ["", ""] [cNeg.score, cNeg.score] (7/10)
      (min (2:ℤ).toNat ([cNeg, cNeg] : List Cand).length)
      ([1] : List ℕ).length [0] [1] = none := by
    show mmrLoop [[], []] ["", ""] [cNeg.score, cNeg.score] (7/10)
      (min (2:ℤ).toNat ([cNeg, cNeg] : List Cand).length) 1 [0] [1] = none
    rw [mmrLoop]
    rw [if_neg (by norm_num)]
    simp only [hbest]
  simp only [mmr_select_url_aware]
  rw [if_neg (by norm_num)]
  rw [hsort]
  simp only [List.map_cons, List.map_nil]
  rw [show cNeg.tfidf = ([] : Profile) from rfl,
      show cNeg.meta.url = "" from rfl]
  simp only [hloop, Option.map_none']

-- ### Source Merger helper lemmas

theorem string_append_ne_empty (a b : String) (ha : a ≠ "") : a ++ b ≠ "" := by
  intro h
  apply ha
  have hd := congrArg String.data h
  simp only [String.data_append] at hd
  rcases List.append_eq_nil.1 hd with ⟨h1, _⟩
  cases a
  exact congrArg String.mk h1

theorem joinSep_append_singleton (sep x : String) (l : List String)
    (hl : l ≠ []) :
    joinSep sep (l ++ [x]) = joinSep sep l ++ sep ++ x := by
  induction l with
  | nil => exact absurd rfl hl
  | cons y ys ih =>
    cases ys with
    | nil => rfl
    | cons z zs =>
      have h1 : joinSep sep (y :: z :: zs ++ [x])
          = y ++ sep ++ joinSep sep (z :: zs ++ [x]) := rfl
      rw [List.cons_append] at h1 ⊢
      rw [h1, ih (by simp)]
      have h2 : joinSep sep (y :: z :: zs) = y ++ sep ++ joinSep sep (z :: zs) := rfl
      rw [h2]
      simp [String.append_assoc]

theorem pymaxQ_append_singleton (l : List ℚ) (x : ℚ) (hl : l ≠ []) :
    pymaxQ (l ++ [x]) = max (pymaxQ l) x := by
  cases l with
  | nil => exact absurd rfl hl
  | cons y ys =>
    show pymaxQ (y :: (ys ++ [x])) = _
    rw [pymaxQ, pymaxQ, List.foldl_append]
    rfl

theorem head?_append_left {α : Type} (l l' : List α) (hl : l ≠ []) :
    (l ++ l').head? = l.head? := by
  cases l with
  | nil => exact absurd rfl hl
  | cons x xs => rfl

theorem mem_foldl_firstSeen (l : List String) :
    ∀ (acc : List String) (a : String),
      a ∈ l.foldl (fun acc k => if k ∈ acc then acc else acc ++ [k]) acc ↔
        a ∈ acc ∨ a ∈ l := by
  induction l with
  | nil => intro acc a; simp
  | cons x xs ih =>
    intro acc a
    simp only [List.foldl_cons]
    by_cases hx : x ∈ acc
    · rw [if_pos hx, ih]
      constructor
      · rintro (h | h)
        · exact Or.inl h
        · exact Or.inr (List.mem_cons_of_mem _ h)
      · rintro (h | h)
        · exact Or.inl h
        · rcases List.mem_cons.1 h with rfl | h
          · exact Or.inl hx
          · exact Or.inr h
    · rw [if_neg hx, ih]
      constructor
      · rintro (h | h)
        · rcases List.mem_append.1 h with h | h
          · exact Or.inl h
          · simp only [List.mem_singleton] at h
            exact Or.inr (h ▸ List.mem_cons_self _ _)
        · exact Or.inr (List.mem_cons_of_mem _ h)
      · rintro (h | h)
        · exact Or.inl (List.mem_append_left _ h)
        · rcases List.mem_cons.1 h with rfl | h
          · exact Or.inl (List.mem_append_right _ (by simp))
          · exact Or.inr h

theorem mem_firstSeen (l : List String) (a : String) :
    a ∈ firstSeen l ↔ a ∈ l := by
  rw [firstSeen, mem_foldl_firstSeen]
  simp

theorem firstSeen_append_singleton (l : List String) (k : String) :
    firstSeen (l ++ [k]) =
      if k ∈ firstSeen l then firstSeen l else firstSeen l ++ [k] := by
  rw [firstSeen, List.foldl_append]
  rfl

theorem lookupG_eq_none (acc : List (String × MGroup)) (k : String)
    (h : lookupG acc k = none) : k ∉ acc.map Prod.fst := by
  intro hmem
  obtain ⟨p, hp, hpk⟩ := List.mem_map.1 hmem
  rw [lookupG] at h
  have := List.find?_eq_none.1 (Option.map_eq_none'.1 h) p hp
  simp [hpk] at this

theorem lookupG_mem (acc : List (String × MGroup)) (k : String) (g : MGroup)
    (h : lookupG acc k = some g) : (k, g) ∈ acc := by
  rw [lookupG] at h
  obtain ⟨p, hp, hpg⟩ := Option.map_eq_some'.1 h
  have hpacc := List.mem_of_find?_eq_some hp
  have hpk : p.1 = k := by
    have := List.find?_some hp
    simpa using this
  have : (k, g) = p := by
    cases p
    simp only at hpk hpg
    simp [hpk, hpg]
  rw [this]
  exact hpacc

theorem updateG_map_fst (acc : List (String × MGroup)) (k : String) (g : MGroup) :
    (updateG acc k g).map Prod.fst = acc.map Prod.fst := by
  rw [updateG, List.map_map]
  refine List.map_congr_left ?_
  intro p _
  by_cases hp : p.1 = k
  · simp [hp]
  · simp [hp]

theorem mem_updateG (acc : List (String × MGroup)) (k : String) (g : MGroup)
    (k' : String) (g' : MGroup) (hmem : (k', g') ∈ updateG acc k g) :
    (k' = k ∧ g' = g) ∨ ((k', g') ∈ acc ∧ k' ≠ k) := by
  rw [updateG] at hmem
  obtain ⟨p, hp, hpe⟩ := List.mem_map.1 hmem
  by_cases hpk : p.1 = k
  · rw [if_pos hpk] at hpe
    injection hpe with h1 h2
    exact Or.inl ⟨h1.symm, h2.symm⟩
  · rw [if_neg hpk] at hpe
    subst hpe
    exact Or.inr ⟨hp, hpk⟩

theorem updateG_mem_self (acc : List (String × MGroup)) (k : String) (g : MGroup)
    (h : k ∈ acc.map Prod.fst) : (k, g) ∈ updateG acc k g := by
  obtain ⟨p, hp, hpk⟩ := List.mem_map.1 h
  rw [updateG]
  refine List.mem_map.2 ⟨p, hp, ?_⟩
  rw [if_pos hpk]

/-- Master invariant of the merge loop (retrieval.py lines 179-190) for
selections whose texts are all non-empty: the accumulator maps the
normalized keys, in first-seen order and without duplicates, to groups
whose text/score/meta are the newline join, maximum and first-member meta
of their members. -/
theorem mergeFold_invariant :
    ∀ sel : List Cand, (∀ s ∈ sel, s.text ≠ "") →
      ((mergeFold sel).map Prod.fst).Nodup ∧
      (mergeFold sel).map Prod.fst = firstSeen (sel.map keyOf) ∧
      ∀ k g, (k, g) ∈ mergeFold sel → GroupSpec sel k g := by
  intro sel
  induction sel using List.reverseRecOn with
  | nil =>
    intro _
    refine ⟨by simp [mergeFold], by simp [mergeFold, firstSeen], ?_⟩
    intro k g hg
    simp [mergeFold] at hg
  | append_singleton sel' s ih =>
    intro htext
    have htext' : ∀ t ∈ sel', t.text ≠ "" :=
      fun t ht => htext t (List.mem_append_left _ ht)
    have hs : s.text ≠ "" := htext s (List.mem_append_right _ (by simp))
    obtain ⟨hnd, hkeys, hprops⟩ := ih htext'
    have hfold : mergeFold (sel' ++ [s]) = mergeStep (mergeFold sel') s := by
      rw [mergeFold, mergeFold, List.foldl_append]
      rfl
    have hfilter_other : ∀ k, k ≠ keyOf s →
        (sel' ++ [s]).filter (fun t => keyOf t = k)
          = sel'.filter (fun t => keyOf t = k) := by
      intro k hk
      rw [List.filter_append]
      have h1 : ([s] : List Cand).filter (fun t => keyOf t = k) = [] := by
        simp [Ne.symm hk]
      rw [h1, List.append_nil]
    have hfilter_s : (sel' ++ [s]).filter (fun t => keyOf t = keyOf s)
        = sel'.filter (fun t => keyOf t = keyOf s) ++ [s] := by
      rw [List.filter_append]
      simp
    have hspec_other : ∀ k g, k ≠ keyOf s →
        GroupSpec sel' k g → GroupSpec (sel' ++ [s]) k g := by
      intro k g hk hspec
      simp only [GroupSpec] at hspec ⊢
      rw [hfilter_other k hk]
      exact hspec
    have hmem_ne : ∀ k, k ∈ (mergeFold sel').map Prod.fst →
        k ∈ sel'.map keyOf := by
      intro k hk
      rw [hkeys] at hk
      exact (mem_firstSeen _ _).1 hk
    cases hlook : lookupG (mergeFold sel') (keyOf s) with
    | none =>
      have hstep : mergeStep (mergeFold sel') s
          = mergeFold sel' ++
            [(keyOf s, { text := s.text, meta := some s.meta, score := s.score })] := by
        simp only [mergeStep, hlook]
      have hκkeys : keyOf s ∉ (mergeFold sel').map Prod.fst :=
        lookupG_eq_none _ _ hlook
      have hκsel' : keyOf s ∉ sel'.map keyOf := by
        intro h
        exact hκkeys (by rw [hkeys]; exact (mem_firstSeen _ _).2 h)
      refine ⟨?_, ?_, ?_⟩
      · rw [hfold, hstep, List.map_append]
        refine List.nodup_append.2 ⟨hnd, by simp, ?_⟩
        intro a ha hax
        simp only [List.map_cons, List.map_nil, List.mem_singleton] at hax
        exact hκkeys (hax ▸ ha)
      · rw [hfold, hstep, List.map_append, List.map_append]
        simp only [List.map_cons, List.map_nil]
        rw [firstSeen_append_singleton]
        rw [if_neg (fun h => hκsel' ((mem_firstSeen _ _).1 h))]
        rw [hkeys]
      · intro k g hkg
        rw [hfold, hstep] at hkg
        rcases List.mem_append.1 hkg with hin | hnew
        · have hkne : k ≠ keyOf s := by
            intro he
            exact hκkeys (he ▸ List.mem_map.2 ⟨(k, g), hin, rfl⟩)
          exact hspec_other k g hkne (hprops k g hin)
        · simp only [List.mem_singleton] at hnew
          injection hnew with hk hg
          subst hk
          subst hg
          have hfilnil : sel'.filter (fun t => keyOf t = keyOf s) = [] := by
            rw [List.filter_eq_nil_iff]
            intro t ht hkt
            exact hκsel' (List.mem_map.2 ⟨t, ht, by simpa using hkt⟩)
          simp only [GroupSpec, hfilter_s, hfilnil, List.nil_append]
          refine ⟨by simp, rfl, rfl, ⟨s, rfl, rfl⟩, hs⟩
    | some g0 =>
      have hg0mem : (keyOf s, g0) ∈ mergeFold sel' := lookupG_mem _ _ _ hlook
      have hg0spec := hprops _ _ hg0mem
      have hg0text : g0.text ≠ "" := hg0spec.2.2.2.2
      have hstep : mergeStep (mergeFold sel') s
          = updateG (mergeFold sel') (keyOf s)
              { text := g0.text ++ "\n" ++ s.text, meta := g0.meta,
                score := max g0.score s.score } := by
        simp only [mergeStep, hlook]
        rw [if_pos hg0text]
      have hκkeys : keyOf s ∈ (mergeFold sel').map Prod.fst :=
        List.mem_map.2 ⟨(keyOf s, g0), hg0mem, rfl⟩
      refine ⟨?_, ?_, ?_⟩
      · rw [hfold, hstep, updateG_map_fst]
        exact hnd
      · rw [hfold, hstep, updateG_map_fst, List.map_append]
        simp only [List.map_cons, List.map_nil]
        rw [firstSeen_append_singleton]
        rw [if_pos (by rw [← hkeys]; exact hκkeys)]
        exact hkeys
      · intro k g hkg
        rw [hfold, hstep] at hkg
        rcases mem_updateG _ _ _ _ _ hkg with ⟨hk, hg⟩ | ⟨hin, hkne⟩
        · subst hk
          subst hg
          obtain ⟨hne0, htext0, hscore0, ⟨m, hm, hmeta0⟩, _⟩ := hg0spec
          have hmapne : (sel'.filter (fun t => keyOf t = keyOf s)).map
              (fun t => t.text) ≠ [] := by
            simpa [List.map_eq_nil_iff] using hne0
          simp only [GroupSpec, hfilter_s]
          refine ⟨by simp, ?_, ?_, ?_, ?_⟩
          · rw [List.map_append]
            simp only [List.map_cons, List.map_nil]
            rw [joinSep_append_singleton _ _ _ hmapne]
            rw [htext0]
          · rw [List.map_append]
            simp only [List.map_cons, List.map_nil]
            rw [pymaxQ_append_singleton _ _ (by simpa [List.map_eq_nil_iff] using hne0)]
            rw [hscore0]
          · refine ⟨m, ?_, hmeta0⟩
            rw [head?_append_left _ _ hne0]
            exact hm
          · exact string_append_ne_empty _ _
              (string_append_ne_empty _ _ hg0text)
        · exact hspec_other k g hkne (hprops k g hin)

-- ### From the pipeline to the merger's input

theorem mmrLoop_mem (vecs : List Profile) (urls : List String) (rels : List ℚ)
    (lam : ℚ) (k : ℕ) :
    ∀ fuel selected avail out,
      mmrLoop vecs urls rels lam k fuel selected avail = some out →
      ∀ i ∈ out, i ∈ selected ∨ i ∈ avail := by
  intro fuel
  induction fuel with
  | zero =>
    intro selected avail out h i hi
    simp only [mmrLoop] at h
    split at h
    · cases h; exact Or.inl hi
    · cases h
  | succ fuel ih =>
    intro selected avail out h i hi
    simp only [mmrLoop] at h
    split at h
    · cases h; exact Or.inl hi
    · cases hb : bestIdx (mmrVal vecs urls rels lam selected) avail with
      | none => simp only [hb] at h; cases h
      | some b =>
        simp only [hb] at h
        rcases ih _ _ _ h i hi with hsel | hav
        · rcases List.mem_append.1 hsel with h1 | h1
          · exact Or.inl h1
          · simp only [List.mem_singleton] at h1
            exact Or.inr (h1 ▸ bestIdx_mem _ _ _ hb)
        · exact Or.inr (List.mem_of_mem_erase hav)

/-- Every selected candidate comes from the pool. -/
theorem mmr_select_mem (scored : List Cand) (k : ℤ) (lam : ℚ) (r : List Cand)
    (hr : mmr_select_url_aware scored k lam = some r) :
    ∀ c ∈ r, c ∈ scored := by
  intro c hc
  by_cases h0 : scored.length = 0 ∨ k ≤ 0
  · simp only [mmr_select_url_aware] at hr
    rw [if_pos h0] at hr
    cases hr
    simp at hc
  · simp only [mmr_select_url_aware] at hr
    rw [if_neg h0] at hr
    obtain ⟨rest0, hrest0⟩ : ∃ rest0,
        sortDescBy (fun i => (scored.getD i dCand).score)
          (List.range scored.length) = rest0 := ⟨_, rfl⟩
    rw [hrest0] at hr
    cases rest0 with
    | nil =>
      cases hr
      simp at hc
    | cons i0 rest =>
      simp only [Option.map_eq_some'] at hr
      obtain ⟨sel, hloop, rfl⟩ := hr
      obtain ⟨i, hisel, rfl⟩ := List.mem_map.1 hc
      have hmemrange : i ∈ List.range scored.length := by
        have hperm := sortDescBy_perm (fun i => (scored.getD i dCand).score)
          (List.range scored.length)
        rw [hrest0] at hperm
        rcases mmrLoop_mem _ _ _ _ _ _ _ _ _ hloop i hisel with h1 | h1
        · simp only [List.mem_singleton] at h1
          exact hperm.mem_iff.1 (h1 ▸ List.mem_cons_self _ _)
        · exact hperm.mem_iff.1 (List.mem_cons_of_mem _ h1)
      have hilt : i < scored.length := List.mem_range.1 hmemrange
      rw [List.getD_eq_getElem scored dCand hilt]
      exact List.getElem_mem _

theorem candsOf_text_ne (rows : List Row) :
    ∀ c ∈ candsOf (fetchTransform rows), c.text ≠ "" := by
  intro c hc
  obtain ⟨r, hr, rfl⟩ := List.mem_map.1 hc
  obtain ⟨row, _, rfl⟩ := List.mem_map.1 hr
  have h0 : ("TITLE: " : String) ≠ "" := by decide
  exact string_append_ne_empty _ _
    (string_append_ne_empty _ _
      (string_append_ne_empty _ _
        (string_append_ne_empty _ _
          (string_append_ne_empty _ _ h0))))

theorem candsOf_meta_score (base : List FetchedRow) :
    ∀ c ∈ candsOf base, c.meta.score = c.score := by
  intro c hc
  obtain ⟨r, _, rfl⟩ := List.mem_map.1 hc
  rfl

/-- Whatever `hybrid_retrieve_pg` feeds the Source Merger comes from the
prepared candidate list of the fetched rows. -/
theorem hybridSelected_sub (rows : List Row) (q : String) (tk : ℤ) (lam : ℚ)
    (sel : List Cand) (hsel : hybridSelected (Except.ok rows) q tk lam = some sel) :
    ∀ s ∈ sel, s ∈ candsOf (fetchTransform rows) := by
  intro s hs
  simp only [hybridSelected] at hsel
  split at hsel
  · cases hsel; simp at hs
  · exact mmr_select_mem _ _ _ _ hsel s hs

theorem hybridSelected_text_ne (rows : List Row) (q : String) (tk : ℤ) (lam : ℚ)
    (sel : List Cand) (hsel : hybridSelected (Except.ok rows) q tk lam = some sel) :
    ∀ s ∈ sel, s.text ≠ "" :=
  fun s hs => candsOf_text_ne rows s (hybridSelected_sub rows q tk lam sel hsel s hs)

theorem mem_mergeSel (sel : List Cand) (g : MGroup) (h : g ∈ mergeSel sel) :
    ∃ k, (k, g) ∈ mergeFold sel := by
  rw [mergeSel] at h
  have hmem := (sortDescBy_perm (fun g => g.score)
    ((mergeFold sel).map Prod.snd)).mem_iff.1 h
  obtain ⟨p, hp, hpe⟩ := List.mem_map.1 hmem
  refine ⟨p.1, ?_⟩
  have : p = (p.1, g) := by
    cases p
    simp only at hpe
    rw [hpe]
  rw [← this]
  exact hp

theorem le_foldl_max (l : List ℚ) :
    ∀ b : ℚ, b ≤ l.foldl max b ∧ ∀ x ∈ l, x ≤ l.foldl max b := by
  induction l with
  | nil => intro b; exact ⟨le_refl _, by simp⟩
  | cons y ys ih =>
    intro b
    rw [List.foldl_cons]
    refine ⟨le_trans (le_max_left b y) (ih (max b y)).1, ?_⟩
    intro x hx
    rcases List.mem_cons.1 hx with rfl | hx
    · exact le_trans (le_max_right b x) (ih (max b x)).1
    · exact (ih (max b y)).2 x hx

theorem le_pymaxQ_of_mem (l : List ℚ) (x : ℚ) (hx : x ∈ l) : x ≤ pymaxQ l := by
  cases l with
  | nil => simp at hx
  | cons y ys =>
    rw [pymaxQ]
    rcases List.mem_cons.1 hx with rfl | hx
    · exact (le_foldl_max ys x).1
    · exact (le_foldl_max ys y).2 x hx

theorem mem_of_head?_eq_some {α : Type} (l : List α) (a : α)
    (h : l.head? = some a) : a ∈ l := by
  cases l with
  | nil => cases h
  | cons x xs =>
    injection h with h
    exact h ▸ List.mem_cons_self _ _

/-- A stored group's recomputed key (from its retained meta) is its key. -/
theorem groupKey_eq_of_spec (sel : List Cand) (k : String) (g : MGroup)
    (hspec : GroupSpec sel k g) : groupKey g = k := by
  obtain ⟨hne, _, _, ⟨m, hm, hmeta⟩, _⟩ := hspec
  have hmmem : m ∈ sel.filter (fun s => keyOf s = k) := mem_of_head?_eq_some _ _ hm
  have hmk : keyOf m = k := by
    have := List.of_mem_filter hmmem
    simpa using this
  rw [groupKey, hmeta]
  exact hmk

/-- C6: for every selection the pipeline hands the Source Merger, each
merged group's aggregated score equals the maximum of its member
candidates' scores (the selected candidates carrying the group's normalized
key); in particular it is never less than any individual member's score. -/
theorem merge_group_score_is_max (rows : List Row) (q : String) (tk : ℤ) (lam : ℚ)
    (sel : List Cand)
    (hsel : hybridSelected (Except.ok rows) q tk lam = some sel) :
    ∀ g ∈ mergeSel sel,
      g.score = pymaxQ ((sel.filter (fun s => keyOf s = groupKey g)).map
        (fun s => s.score)) ∧
      ∀ s ∈ sel, keyOf s = groupKey g → s.score ≤ g.score := by
  have htext := hybridSelected_text_ne rows q tk lam sel hsel
  obtain ⟨_, _, hprops⟩ := mergeFold_invariant sel htext
  intro g hg
  obtain ⟨k, hkg⟩ := mem_mergeSel sel g hg
  have hspec := hprops k g hkg
  have hkey : groupKey g = k := groupKey_eq_of_spec sel k g hspec
  rw [hkey]
  refine ⟨hspec.2.2.1, ?_⟩
  intro s hs hks
  rw [hspec.2.2.1]
  refine le_pymaxQ_of_mem _ _ ?_
  exact List.mem_map.2 ⟨s, List.mem_filter.2 ⟨hs, by simp [hks]⟩, rfl⟩

unseal Rat.mul Rat.inv Rat.add Rat.sub in
/-- Witness for C6: one fetched row; its singleton group's score is the
maximum (= only) member score. -/
theorem merge_group_score_is_max_witness :
    hybridSelected (Except.ok [rowC6]) "q" 1 (7/10)
      = some (candsOf (fetchTransform [rowC6])) ∧
    (∀ g ∈ mergeSel (candsOf (fetchTransform [rowC6])),
      g.score = pymaxQ (((candsOf (fetchTransform [rowC6])).filter
        (fun s => keyOf s = groupKey g)).map (fun s => s.score)) ∧
      ∀ s ∈ candsOf (fetchTransform [rowC6]),
        keyOf s = groupKey g → s.score ≤ g.score) :=
  ⟨by decide,
   merge_group_score_is_max [rowC6] "q" 1 (7/10) _ (by decide)⟩

/-- C8: for every selection the pipeline hands the Source Merger, the
groups are formed by normalized source identifier in first-seen order
(the fold's key sequence is the deduplicated member-key sequence), and each
group's text is its members' texts joined in selection order, separated by
the newline paragraph break. -/
theorem merge_group_text_and_order (rows : List Row) (q : String) (tk : ℤ)
    (lam : ℚ) (sel : List Cand)
    (hsel : hybridSelected (Except.ok rows) q tk lam = some sel) :
    (mergeFold sel).map Prod.fst = firstSeen (sel.map keyOf) ∧
    ∀ k g, (k, g) ∈ mergeFold sel →
      g.text = joinSep "\n" ((sel.filter (fun s => keyOf s = k)).map
        (fun s => s.text)) := by
  have htext := hybridSelected_text_ne rows q tk lam sel hsel
  obtain ⟨_, hkeys, hprops⟩ := mergeFold_invariant sel htext
  exact ⟨hkeys, fun k g hkg => (hprops k g hkg).2.1⟩

unseal Rat.mul Rat.inv Rat.add Rat.sub in
/-- Witness for C8 on one fetched row. -/
theorem merge_group_text_and_order_witness :
    hybridSelected (Except.ok [rowC8]) "q" 2 (7/10)
      = some (candsOf (fetchTransform [rowC8])) ∧
    ((mergeFold (candsOf (fetchTransform [rowC8]))).map Prod.fst
        = firstSeen ((candsOf (fetchTransform [rowC8])).map keyOf) ∧
     ∀ k g, (k, g) ∈ mergeFold (candsOf (fetchTransform [rowC8])) →
       g.text = joinSep "\n" (((candsOf (fetchTransform [rowC8])).filter
         (fun s => keyOf s = k)).map (fun s => s.text))) :=
  ⟨by decide,
   merge_group_text_and_order [rowC8] "q" 2 (7/10) _ (by decide)⟩

/-- C9 (amended): the metadata exposed for each merged group is the meta
dict of the group's first-selected member, so the `score` it carries equals
that member's selection score — not necessarily the group's aggregated
maximum, which the code uses only to sort the groups.  (The counterexample
exhibits a pipeline run where the two differ.) -/
theorem merged_meta_is_first_member (rows : List Row) (q : String) (tk : ℤ)
    (lam : ℚ) (sel : List Cand)
    (hsel : hybridSelected (Except.ok rows) q tk lam = some sel) :
    ∀ g ∈ mergeSel sel, ∃ m,
      (sel.filter (fun s => keyOf s = groupKey g)).head? = some m ∧
      g.meta = some m.meta ∧ m.meta.score = m.score := by
  have htext := hybridSelected_text_ne rows q tk lam sel hsel
  obtain ⟨_, _, hprops⟩ := mergeFold_invariant sel htext
  intro g hg
  obtain ⟨k, hkg⟩ := mem_mergeSel sel g hg
  have hspec := hprops k g hkg
  have hkey : groupKey g = k := groupKey_eq_of_spec sel k g hspec
  obtain ⟨m, hm, hmeta⟩ := hspec.2.2.2.1
  rw [hkey]
  refine ⟨m, hm, hmeta, ?_⟩
  have hmmem : m ∈ sel :=
    List.mem_of_mem_filter (mem_of_head?_eq_some _ _ hm)
  exact candsOf_meta_score _ m (hybridSelected_sub rows q tk lam sel hsel m hmmem)

unseal Rat.mul Rat.inv Rat.add Rat.sub in
/-- Witness for C9 (amended) on one fetched row. -/
theorem merged_meta_is_first_member_witness :
    hybridSelected (Except.ok [rowC9]) "q" 3 (7/10)
      = some (candsOf (fetchTransform [rowC9])) ∧
    (∀ g ∈ mergeSel (candsOf (fetchTransform [rowC9])), ∃ m,
      ((candsOf (fetchTransform [rowC9])).filter
        (fun s => keyOf s = groupKey g)).head? = some m ∧
      g.meta = some m.meta ∧ m.meta.score = m.score) :=
  ⟨by decide,
   merged_meta_is_first_member [rowC9] "q" 3 (7/10) _ (by decide)⟩

-- ### Idempotence of the Source Merger

theorem lookupG_eq_none_of_not_mem (acc : List (String × MGroup)) (k : String)
    (h : k ∉ acc.map Prod.fst) : lookupG acc k = none := by
  rw [lookupG, Option.map_eq_none', List.find?_eq_none]
  intro p hp
  simp only [decide_eq_true_eq]
  intro he
  exact h (List.mem_map.2 ⟨p, hp, he⟩)

/-- Light invariant (no text hypotheses): keys are unique, and every stored
group retains the meta of some member carrying its key. -/
theorem mergeFold_keys :
    ∀ sel : List Cand,
      ((mergeFold sel).map Prod.fst).Nodup ∧
      ∀ k g, (k, g) ∈ mergeFold sel →
        ∃ m : Cand, keyOf m = k ∧ g.meta = some m.meta := by
  intro sel
  induction sel using List.reverseRecOn with
  | nil =>
    refine ⟨by simp [mergeFold], ?_⟩
    intro k g hg
    simp [mergeFold] at hg
  | append_singleton sel' s ih =>
    obtain ⟨hnd, hmeta⟩ := ih
    have hfold : mergeFold (sel' ++ [s]) = mergeStep (mergeFold sel') s := by
      rw [mergeFold, mergeFold, List.foldl_append]
      rfl
    cases hlook : lookupG (mergeFold sel') (keyOf s) with
    | none =>
      have hstep : mergeStep (mergeFold sel') s
          = mergeFold sel' ++
            [(keyOf s, { text := s.text, meta := some s.meta, score := s.score })] := by
        simp only [mergeStep, hlook]
      have hκ : keyOf s ∉ (mergeFold sel').map Prod.fst := lookupG_eq_none _ _ hlook
      refine ⟨?_, ?_⟩
      · rw [hfold, hstep, List.map_append]
        refine List.nodup_append.2 ⟨hnd, by simp, ?_⟩
        intro a ha hax
        simp only [List.map_cons, List.map_nil, List.mem_singleton] at hax
        exact hκ (hax ▸ ha)
      · intro k g hkg
        rw [hfold, hstep] at hkg
        rcases List.mem_append.1 hkg with hin | hnew
        · exact hmeta k g hin
        · simp only [List.mem_singleton] at hnew
          injection hnew with hk hg
          subst hk
          subst hg
          exact ⟨s, rfl, rfl⟩
    | some g0 =>
      have hκ : keyOf s ∈ (mergeFold sel').map Prod.fst :=
        List.mem_map.2 ⟨(keyOf s, g0), lookupG_mem _ _ _ hlook, rfl⟩
      by_cases hg0t : g0.text ≠ ""
      · have hstep : mergeStep (mergeFold sel') s
            = updateG (mergeFold sel') (keyOf s)
                { text := g0.text ++ "\n" ++ s.text, meta := g0.meta,
                  score := max g0.score s.score } := by
          simp only [mergeStep, hlook]
          rw [if_pos hg0t]
        refine ⟨by rw [hfold, hstep, updateG_map_fst]; exact hnd, ?_⟩
        intro k g hkg
        rw [hfold, hstep] at hkg
        rcases mem_updateG _ _ _ _ _ hkg with ⟨hk, hg⟩ | ⟨hin, _⟩
        · subst hk
          subst hg
          obtain ⟨m, hm1, hm2⟩ := hmeta _ _ (lookupG_mem _ _ _ hlook)
          exact ⟨m, hm1, hm2⟩
        · exact hmeta k g hin
      · have hstep : mergeStep (mergeFold sel') s
            = updateG (mergeFold sel') (keyOf s)
                { text := s.text, meta := some s.meta, score := s.score } := by
          simp only [mergeStep, hlook]
          rw [if_neg hg0t]
        refine ⟨by rw [hfold, hstep, updateG_map_fst]; exact hnd, ?_⟩
        intro k g hkg
        rw [hfold, hstep] at hkg
        rcases mem_updateG _ _ _ _ _ hkg with ⟨hk, hg⟩ | ⟨hin, _⟩
        · subst hk
          subst hg
          exact ⟨s, rfl, rfl⟩
        · exact hmeta k g hin

theorem groupKey_eq_of_meta (k : String) (g : MGroup)
    (h : ∃ m : Cand, keyOf m = k ∧ g.meta = some m.meta) : groupKey g = k := by
  obtain ⟨m, hm, hmeta⟩ := h
  rw [groupKey, hmeta]
  exact hm

theorem insertDescBy_head {α : Type} (key : α → ℚ) (x : α) (l : List α) :
    (insertDescBy key x l).head? = some x ∨
    (insertDescBy key x l).head? = l.head? := by
  cases l with
  | nil => exact Or.inl rfl
  | cons y ys =>
    rw [insertDescBy]
    split
    · exact Or.inl rfl
    · exact Or.inr rfl

theorem insertDescBy_chain {α : Type} (key : α → ℚ) (x : α) (l : List α)
    (hl : List.Chain' (fun a b => key b ≤ key a) l) :
    List.Chain' (fun a b => key b ≤ key a) (insertDescBy key x l) := by
  induction l with
  | nil => simp [insertDescBy]
  | cons y ys ih =>
    rw [insertDescBy]
    split
    · next h => exact hl.cons h
    · next h =>
      have hins := ih hl.tail
      rw [List.chain'_cons']
      refine ⟨?_, hins⟩
      intro b hb
      rcases insertDescBy_head key x ys with hh | hh
      · rw [hh] at hb
        injection hb with hb
        subst hb
        exact le_of_lt (lt_of_not_le h)
      · rw [hh] at hb
        exact (List.chain'_cons'.1 hl).1 b hb

theorem sortDescBy_sorted {α : Type} (key : α → ℚ) (l : List α) :
    List.Chain' (fun a b => key b ≤ key a) (sortDescBy key l) := by
  induction l with
  | nil => simp [sortDescBy]
  | cons x xs ih => exact insertDescBy_chain key x _ ih

theorem sortDescBy_eq_self {α : Type} (key : α → ℚ) (l : List α)
    (hl : List.Chain' (fun a b => key b ≤ key a) l) : sortDescBy key l = l := by
  induction l with
  | nil => rfl
  | cons x xs ih =>
    rw [sortDescBy, ih hl.tail]
    cases xs with
    | nil => rfl
    | cons y ys =>
      rw [insertDescBy, if_pos (List.chain'_cons.1 hl).1]

/-- Fresh-key pass-through: folding the merge loop over items with pairwise
distinct keys none of which are already present creates one singleton entry
per item, in order. -/
theorem foldl_mergeStep_fresh :
    ∀ (items : List Cand) (acc : List (String × MGroup)),
      (∀ c ∈ items, keyOf c ∉ acc.map Prod.fst) →
      (items.map keyOf).Nodup →
      items.foldl mergeStep acc
        = acc ++ items.map (fun c =>
            (keyOf c, { text := c.text, meta := some c.meta, score := c.score })) := by
  intro items
  induction items with
  | nil => intro acc _ _; simp
  | cons s rest ih =>
    intro acc hfresh hnd
    rw [List.foldl_cons]
    have hlook : lookupG acc (keyOf s) = none :=
      lookupG_eq_none_of_not_mem _ _ (hfresh s (by simp))
    have hstep : mergeStep acc s
        = acc ++ [(keyOf s, { text := s.text, meta := some s.meta, score := s.score })] := by
      simp only [mergeStep, hlook]
    rw [hstep, ih]
    · simp
    · intro c hc
      rw [List.map_append]
      intro hmem
      rcases List.mem_append.1 hmem with h1 | h1
      · exact hfresh c (List.mem_cons_of_mem _ hc) h1
      · simp only [List.map_cons, List.map_nil, List.mem_singleton] at h1
        have : keyOf s ∉ rest.map keyOf := by
          simp only [List.map_cons] at hnd
          exact (List.nodup_cons.1 hnd).1
        exact this (h1 ▸ List.mem_map.2 ⟨c, hc, rfl⟩)
    · simp only [List.map_cons] at hnd
      exact (List.nodup_cons.1 hnd).2

/-- C7: the Source Merger is idempotent — feeding its own merged output
back through the merge yields an identical grouping: same groups, texts,
metas, scores, and order. -/
theorem merge_idempotent (sel : List Cand) :
    mergeSel (groupsToCands (mergeSel sel)) = mergeSel sel := by
  obtain ⟨hnd, hmeta⟩ := mergeFold_keys sel
  have hgs_meta : ∀ g ∈ mergeSel sel,
      ∃ m : Cand, keyOf m = groupKey g ∧ g.meta = some m.meta := by
    intro g hg
    obtain ⟨k, hkg⟩ := mem_mergeSel sel g hg
    obtain ⟨m, hm1, hm2⟩ := hmeta k g hkg
    refine ⟨m, ?_, hm2⟩
    rw [groupKey_eq_of_meta k g ⟨m, hm1, hm2⟩]
    exact hm1
  have hitems_keys : (groupsToCands (mergeSel sel)).map keyOf
      = (mergeSel sel).map groupKey := by
    rw [groupsToCands, List.map_map]
    refine List.map_congr_left ?_
    intro g hg
    obtain ⟨m, _, hm2⟩ := hgs_meta g hg
    show keyOf ({ text := g.text, score := g.score, tfidf := [], meta := g.meta.getD dMeta } : Cand) = groupKey g
    rw [keyOf, groupKey, hm2]
    rfl
  have hnd_items : ((groupsToCands (mergeSel sel)).map keyOf).Nodup := by
    rw [hitems_keys]
    have hperm : List.Perm ((mergeSel sel).map groupKey)
        (((mergeFold sel).map Prod.snd).map groupKey) :=
      (sortDescBy_perm _ _).map groupKey
    have heq : ((mergeFold sel).map Prod.snd).map groupKey
        = (mergeFold sel).map Prod.fst := by
      rw [List.map_map]
      refine List.map_congr_left ?_
      intro p hp
      refine groupKey_eq_of_meta _ _ (hmeta p.1 p.2 ?_)
      cases p
      exact hp
    rw [heq] at hperm
    exact (hperm.nodup_iff).2 hnd
  have hfold2 : mergeFold (groupsToCands (mergeSel sel))
      = (groupsToCands (mergeSel sel)).map (fun c =>
          (keyOf c, ({ text := c.text, meta := some c.meta, score := c.score } : MGroup))) := by
    rw [mergeFold, foldl_mergeStep_fresh _ [] (by simp) hnd_items]
    simp
  have hback : ((groupsToCands (mergeSel sel)).map (fun c =>
      (keyOf c, ({ text := c.text, meta := some c.meta, score := c.score } : MGroup)))).map
        Prod.snd = mergeSel sel := by
    rw [List.map_map, groupsToCands, List.map_map]
    have hcongr : ∀ g ∈ mergeSel sel,
        (Prod.snd ∘ (fun c =>
            (keyOf c, ({ text := c.text, meta := some c.meta, score := c.score } : MGroup))) ∘
          (fun g : MGroup =>
            ({ text := g.text, score := g.score, tfidf := [], meta := g.meta.getD dMeta } : Cand)))
          g = id g := by
      intro g hg
      obtain ⟨m, _, hm2⟩ := hgs_meta g hg
      show ({ text := g.text, meta := some (g.meta.getD dMeta), score := g.score } : MGroup) = g
      rw [hm2, Option.getD_some, ← hm2]
    exact (List.map_congr_left hcongr).trans (List.map_id _)
  have hsorted : List.Chain' (fun a b : MGroup => b.score ≤ a.score)
      (mergeSel sel) := by
    rw [mergeSel]
    exact sortDescBy_sorted _ _
  rw [mergeSel, hfold2, hback]
  exact sortDescBy_eq_self _ _ hsorted

-- ### Concrete pipeline run for the C9 counterexample

theorem sqrt_q_quarter : Real.sqrt ((1/4 : ℚ) : ℝ) = 1/2 := by
  rw [show ((1/4 : ℚ) : ℝ) = (1/2 : ℝ)^2 by push_cast; norm_num]
  exact Real.sqrt_sq (by norm_num)

theorem sqrt_q_four25 : Real.sqrt ((4/25 : ℚ) : ℝ) = 2/5 := by
  rw [show ((4/25 : ℚ) : ℝ) = (2/5 : ℝ)^2 by push_cast; norm_num]
  exact Real.sqrt_sq (by norm_num)

unseal Rat.mul Rat.inv Rat.add Rat.sub in
theorem pyNorm_PX0 : pyNorm PX0 = 1/2 := by
  simp only [pyNorm]
  rw [show sumSq PX0 = 1/4 from by decide, sqrt_q_quarter]
  norm_num

unseal Rat.mul Rat.inv Rat.add Rat.sub in
theorem pyNorm_PX1 : pyNorm PX1 = 1/2 := by
  simp only [pyNorm]
  rw [show sumSq PX1 = 1/4 from by decide, sqrt_q_quarter]
  norm_num

unseal Rat.mul Rat.inv Rat.add Rat.sub in
theorem pyNorm_PX2 : pyNorm PX2 = 2/5 := by
  simp only [pyNorm]
  rw [show sumSq PX2 = 4/25 from by decide, sqrt_q_four25]
  norm_num

unseal Rat.mul Rat.inv Rat.add Rat.sub in
theorem pyCosine_PX10 : pyCosine PX1 PX0 = 3/4 := by
  rw [pyCosine, if_neg (by decide), pyNorm_PX1, pyNorm_PX0]
  rw [show dotCommon PX1 PX0 = 3/16 from by decide]
  push_cast
  norm_num

unseal Rat.mul Rat.inv Rat.add Rat.sub in
theorem pyCosine_PX20 : pyCosine PX2 PX0 = 3/8 := by
  rw [pyCosine, if_neg (by decide), pyNorm_PX2, pyNorm_PX0]
  rw [show dotCommon PX2 PX0 = 3/40 from by decide]
  push_cast
  norm_num

unseal Rat.mul Rat.inv Rat.add Rat.sub in
theorem pyCosine_PX12 : pyCosine PX1 PX2 = 1/2 := by
  rw [pyCosine, if_neg (by decide), pyNorm_PX1, pyNorm_PX2]
  rw [show dotCommon PX1 PX2 = 1/10 from by decide]
  push_cast
  norm_num

theorem pairSim_X10 : pairSim [PX0, PX1, PX2] ["p", "q", "Q"] 1 0 = 3/4 := by
  simp only [pairSim]
  rw [if_neg (by decide)]
  exact pyCosine_PX10

theorem pairSim_X20 : pairSim [PX0, PX1, PX2] ["p", "q", "Q"] 2 0 = 3/8 := by
  simp only [pairSim]
  rw [if_neg (by decide)]
  exact pyCosine_PX20

theorem pairSim_X12 : pairSim [PX0, PX1, PX2] ["p", "q", "Q"] 1 2 = 1/2 := by
  simp only [pairSim]
  rw [if_neg (by decide)]
  exact pyCosine_PX12

theorem div_X1_0 : divPenalty [PX0, PX1, PX2] ["p", "q", "Q"] [0] 1 = 3/4 := by
  rw [divPenalty, if_neg (by decide)]
  show pymaxR [pairSim [PX0, PX1, PX2] ["p", "q", "Q"] 1 0] = 3/4
  rw [pairSim_X10]
  rfl

theorem div_X2_0 : divPenalty [PX0, PX1, PX2] ["p", "q", "Q"] [0] 2 = 3/8 := by
  rw [divPenalty, if_neg (by decide)]
  show pymaxR [pairSim [PX0, PX1, PX2] ["p", "q", "Q"] 2 0] = 3/8
  rw [pairSim_X20]
  rfl

theorem div_X1_02 : divPenalty [PX0, PX1, PX2] ["p", "q", "Q"] [0, 2] 1 = 3/4 := by
  rw [divPenalty, if_neg (by decide)]
  show pymaxR [pairSim [PX0, PX1, PX2] ["p", "q", "Q"] 1 0,
    pairSim [PX0, PX1, PX2] ["p", "q", "Q"] 1 2] = 3/4
  rw [pairSim_X10, pairSim_X12]
  rw [show pymaxR [(3/4 : ℝ), (1/2 : ℝ)] = max (3/4) (1/2) from rfl]
  exact max_eq_left (by norm_num)

theorem val_X1_0 : mmrVal [PX0, PX1, PX2] ["p", "q", "Q"] [1, 9/10, 22/25]
    (7/10) [0] 1 = 81/200 := by
  rw [mmrVal, div_X1_0]
  rw [show ([1, 9/10, 22/25] : List ℚ).getD 1 0 = 9/10 from rfl]
  push_cast
  norm_num

theorem val_X2_0 : mmrVal [PX0, PX1, PX2] ["p", "q", "Q"] [1, 9/10, 22/25]
    (7/10) [0] 2 = 1007/2000 := by
  rw [mmrVal, div_X2_0]
  rw [show ([1, 9/10, 22/25] : List ℚ).getD 2 0 = 22/25 from rfl]
  push_cast
  norm_num

theorem val_X1_02 : mmrVal [PX0, PX1, PX2] ["p", "q", "Q"] [1, 9/10, 22/25]
    (7/10) [0, 2] 1 = 81/200 := by
  rw [mmrVal, div_X1_02]
  rw [show ([1, 9/10, 22/25] : List ℚ).getD 1 0 = 9/10 from rfl]
  push_cast
  norm_num

theorem best_X1 : bestIdx (mmrVal [PX0, PX1, PX2] ["p", "q", "Q"]
    [1, 9/10, 22/25] (7/10) [0]) [1, 2] = some 2 := by
  rw [bestIdx, bestFold, if_pos ?h1]
  case h1 => rw [val_X1_0]; norm_num
  rw [bestFold, if_pos ?h2]
  case h2 => rw [val_X2_0, val_X1_0]; norm_num
  rfl

theorem best_X2 : bestIdx (mmrVal [PX0, PX1, PX2] ["p", "q", "Q"]
    [1, 9/10, 22/25] (7/10) [0, 2]) [1] = some 1 := by
  rw [bestIdx, bestFold, if_pos ?h1]
  case h1 => rw [val_X1_02]; norm_num
  rfl

theorem loop_X : mmrLoop [PX0, PX1, PX2] ["p", "q", "Q"] [1, 9/10, 22/25] (7/10)
    (min (max (2:ℤ) 5).toNat ([cand90, cand91, cand92] : List Cand).length)
    (([1, 2] : List ℕ).length) [0] [1, 2] = some [0, 2, 1] := by
  rw [show (min (max (2:ℤ) 5).toNat ([cand90, cand91, cand92] : List Cand).length)
    = 3 from by decide]
  show mmrLoop [PX0, PX1, PX2] ["p", "q", "Q"] [1, 9/10, 22/25] (7/10) 3 2
    [0] [1, 2] = some [0, 2, 1]
  rw [mmrLoop]
  rw [if_neg (by decide)]
  simp only [best_X1]
  rw [show ([0] ++ [2] : List ℕ) = [0, 2] from rfl,
      show ([1, 2] : List ℕ).erase 2 = [1] from by decide]
  rw [mmrLoop]
  rw [if_neg (by decide)]
  simp only [best_X2]
  rw [show ([0, 2] ++ [1] : List ℕ) = [0, 2, 1] from rfl,
      show ([1] : List ℕ).erase 1 = [] from by decide]
  rw [mmrLoop]
  rw [if_pos (by decide)]

unseal Rat.mul Rat.inv Rat.add Rat.sub in
theorem mmr9_eq : mmr_select_url_aware [cand90, cand91, cand92] (max 2 5) (7/10)
    = some sel9 := by
  have hidx : sortDescBy
      (fun i => (([cand90, cand91, cand92] : List Cand).getD i dCand).score)
      (List.range ([cand90, cand91, cand92] : List Cand).length) = [0, 1, 2] := by
    decide
  simp only [mmr_select_url_aware]
  rw [if_neg (by decide)]
  rw [hidx]
  rw [show ([cand90, cand91, cand92] : List Cand).map (fun c => c.tfidf)
    = [PX0, PX1, PX2] from rfl]
  rw [show ([cand90, cand91, cand92] : List Cand).map (fun c => c.score)
    = [1, 9/10, 22/25] from rfl]
  rw [show ([cand90, cand91, cand92] : List Cand).map (fun c => c.meta.url)
    = ["p", "q", "Q"] from rfl]
  simp only [loop_X, Option.map_some']
  rfl

unseal Rat.mul Rat.inv Rat.add Rat.sub in
theorem hybridSelected_rows9 :
    hybridSelected (Except.ok rows9) "q" 2 (7/10) = some sel9 := by
  have hcands : candsOf (fetchTransform rows9) = [cand90, cand91, cand92] := by
    decide
  simp only [hybridSelected]
  rw [if_neg (by decide)]
  rw [hcands]
  exact mmr9_eq

unseal Rat.mul Rat.inv Rat.add Rat.sub in
/-- C9 counterexample: on the three fetched rows of `rows9`, MMR selects
the `Q` candidate (score 22/25) before the same-source `q` candidate
(score 9/10); the merged `q` group therefore retains the `Q` candidate's
meta dict, so the exposed metadata carries score 22/25 while the group's
aggregated (maximum member) score is 9/10.  The exposed metadata score is
NOT the aggregated group score. -/
theorem exposed_meta_score_counterexample :
    hybridSelected (Except.ok rows9) "q" 2 (7/10) = some sel9 ∧
    hybrid_retrieve_pg (Except.ok rows9) "q" 2 (7/10)
      = some (formatOut (mergeSel sel9)) ∧
    gQ ∈ mergeSel sel9 ∧
    (gQ.text, gQ.meta) ∈ formatOut (mergeSel sel9) ∧
    gQ.meta = some cand92.meta ∧
    cand92.meta.score = 22/25 ∧
    pymaxQ ((sel9.filter (fun s => keyOf s = groupKey gQ)).map
      (fun s => s.score)) = 9/10 ∧
    (22/25 : ℚ) ≠ 9/10 := by
  refine ⟨hybridSelected_rows9, ?_, by decide, by decide, by decide, by decide,
    by decide, by decide⟩
  simp only [hybrid_retrieve_pg, hybridSelected_rows9]

/-- C10: in the MMR loop, the source-repeat attenuation is applied to a
pairwise similarity exactly when both candidates' URL strings are non-empty
and equal as stored; the stored URLs are the fetcher's whitespace-stripped
raw URLs — no lowercasing or trailing-separator normalization happens
before this comparison (unlike the merge key).  Consequently a candidate
with an empty or missing URL never has any of its similarities attenuated,
and neither does a pair whose URLs differ in any character (even by case
alone, although the merger would group them). -/
theorem mmr_attenuation_exact_url_equality (rows : List Row) (i j : ℕ)
    (hi : i < rows.length) (hj : j < rows.length) :
    (pipelineUrls rows).getD i "" = pyStrip ((rows.getD i dRow).url.getD "") ∧
    pairSim (pipelineVecs rows) (pipelineUrls rows) i j
      = (if (pipelineUrls rows).getD i "" ≠ "" ∧ (pipelineUrls rows).getD j "" ≠ ""
            ∧ (pipelineUrls rows).getD i "" = (pipelineUrls rows).getD j ""
         then pyCosine ((pipelineVecs rows).getD i []) ((pipelineVecs rows).getD j [])
                * ((repeatFactor ((pipelineUrls rows).count
                    ((pipelineUrls rows).getD i "")) : ℚ) : ℝ)
         else pyCosine ((pipelineVecs rows).getD i [])
                ((pipelineVecs rows).getD j [])) ∧
    ((pipelineUrls rows).getD i "" = "" →
      pairSim (pipelineVecs rows) (pipelineUrls rows) i j
        = pyCosine ((pipelineVecs rows).getD i [])
            ((pipelineVecs rows).getD j [])) ∧
    ((pipelineUrls rows).getD i "" ≠ (pipelineUrls rows).getD j "" →
      pairSim (pipelineVecs rows) (pipelineUrls rows) i j
        = pyCosine ((pipelineVecs rows).getD i [])
            ((pipelineVecs rows).getD j [])) := by
  refine ⟨?_, ?_, ?_, ?_⟩
  · have hlen : i < (candsOf (fetchTransform rows)).length := by
      rw [candsOf, List.length_map, fetchTransform, List.length_map]
      exact hi
    rw [pipelineUrls]
    rw [List.getD_eq_getElem _ _ (by rw [List.length_map]; exact hlen)]
    rw [List.getD_eq_getElem _ _ hi]
    simp only [candsOf, fetchTransform, List.getElem_map]
  · simp only [pairSim]
  · intro h
    simp only [pairSim]
    rw [if_neg (fun hc => hc.1 h)]
  · intro h
    simp only [pairSim]
    rw [if_neg (fun hc => h hc.2.2)]

unseal Rat.mul Rat.inv Rat.add Rat.sub in
/-- Witness for C10 on two concrete rows. -/
theorem mmr_attenuation_exact_url_equality_witness :
    0 < ([rowC4, rowC6] : List Row).length ∧ 1 < ([rowC4, rowC6] : List Row).length ∧
    ((pipelineUrls [rowC4, rowC6]).getD 0 ""
        = pyStrip ((([rowC4, rowC6] : List Row).getD 0 dRow).url.getD "") ∧
     pairSim (pipelineVecs [rowC4, rowC6]) (pipelineUrls [rowC4, rowC6]) 0 1
       = (if (pipelineUrls [rowC4, rowC6]).getD 0 "" ≠ ""
             ∧ (pipelineUrls [rowC4, rowC6]).getD 1 "" ≠ ""
             ∧ (pipelineUrls [rowC4, rowC6]).getD 0 ""
                = (pipelineUrls [rowC4, rowC6]).getD 1 ""
          then pyCosine ((pipelineVecs [rowC4, rowC6]).getD 0 [])
                 ((pipelineVecs [rowC4, rowC6]).getD 1 [])
                 * ((repeatFactor ((pipelineUrls [rowC4, rowC6]).count
                     ((pipelineUrls [rowC4, rowC6]).getD 0 "")) : ℚ) : ℝ)
          else pyCosine ((pipelineVecs [rowC4, rowC6]).getD 0 [])
                 ((pipelineVecs [rowC4, rowC6]).getD 1 [])) ∧
     ((pipelineUrls [rowC4, rowC6]).getD 0 "" = "" →
       pairSim (pipelineVecs [rowC4, rowC6]) (pipelineUrls [rowC4, rowC6]) 0 1
         = pyCosine ((pipelineVecs [rowC4, rowC6]).getD 0 [])
             ((pipelineVecs [rowC4, rowC6]).getD 1 [])) ∧
     ((pipelineUrls [rowC4, rowC6]).getD 0 ""
         ≠ (pipelineUrls [rowC4, rowC6]).getD 1 "" →
       pairSim (pipelineVecs [rowC4, rowC6]) (pipelineUrls [rowC4, rowC6]) 0 1
         = pyCosine ((pipelineVecs [rowC4, rowC6]).getD 0 [])
             ((pipelineVecs [rowC4, rowC6]).getD 1 []))) :=
  ⟨by decide, by decide,
   mmr_attenuation_exact_url_equality [rowC4, rowC6] 0 1 (by decide) (by decide)⟩
